import Mathlib

/-!
# Verification of the `perfdata` crate (Nagios performance-data parser)

This file is a shallow embedding, in Lean 4, of the Rust crate `perfdata`:

* `src/thresholds.rs`  — `ThresholdRange` (construction, `is_alert`, `Display`),
* `src/perf/data.rs`   — `Perfdata` (constructors, builders, queries, `Display`),
* `src/perf/dataset.rs`— `PerfdataSet`,
* `src/parser.rs`      — `TryFrom<&str> for Perfdata`, `FromStr for ThresholdRange`,
  `parse_label`, `parse_perfdata_with_unit`, `parse_range`, `Perfdata::parse_from_list`,
* `src/error.rs`       — the closed error enumeration,
* `src/monitoring_status.rs` — the four-valued status.

Modelling decisions, stated once here:

* Rust string slices (`&str`) are modelled as `List Char` (`Str` below).  All string
  operations used by the crate (`split_once`, `split`, `trim`, `find`, `starts_with`,
  `ends_with`, `contains`, slicing at character positions) are reproduced on lists.
  Every index that the crate computes comes from a search on the same string, so byte
  indices and character indices coincide for the purposes of these operations.

* `Value = f64` is modelled by `Val`: NaN, minus infinity, a finite rational, or plus
  infinity.  The crate only ever compares values (`<`, `<=`, `>=`), swaps them, formats
  them in plain (non-scientific) decimal notation, and parses them back; on those
  operations the extended rationals agree with IEEE doubles, with NaN given the usual
  incomparable behaviour (`vle`/`vlt` below), and `-0.0` identified with `0.0` (the two
  are `==`-equal in Rust and print the same digits up to sign).  Every finite double is
  a rational whose denominator divides a power of ten ("decimal" rationals below);
  rationals outside that set do not correspond to any double, and `fmtQ` renders such a
  rational (unreachably for the modelled program) as "0".
  Rust's `f64::from_str` is modelled by `parseVal` following the grammar documented for
  it in `std` (optional sign; `inf` / `infinity` / `nan` case-insensitively; otherwise
  digits with optional point, fraction and exponent), evaluated exactly over ℚ.
  Rust's `Display for f64` (shortest round-tripping plain decimal) is modelled by
  `fmtQ`, which prints the exact decimal expansion without trailing zeros.

* A Rust panic (reachable in `parse_label` through an out-of-bounds slice) is modelled
  by `Option`: `none` is a panic, `some r` a normal return of `r`.

* `PartialEq` on `f64` (false on NaN) is modelled by `Val.peq`; derived structural
  equality of records coincides with it whenever no NaN is involved.
-/

deriving instance DecidableEq for Except

/-- Rust `&str`, modelled at character granularity. -/
abbrev Str := List Char

namespace Str

/-- Rust `str::split_once(c)`: split at the first occurrence of `c`. -/
def splitOnce (c : Char) : Str → Option (Str × Str)
  | [] => none
  | x :: xs =>
    if x = c then some ([], xs)
    else match splitOnce c xs with
      | some (l, r) => some (x :: l, r)
      | none => none

theorem splitOnce_length_lt (c : Char) :
    ∀ t l r, splitOnce c t = some (l, r) → r.length < t.length := by
  intro t
  induction t with
  | nil => intro l r h; simp [splitOnce] at h
  | cons x xs ih =>
    intro l r h
    simp only [splitOnce] at h
    by_cases hx : x = c
    · simp only [if_pos hx, Option.some.injEq, Prod.mk.injEq] at h
      obtain ⟨-, hr⟩ := h
      subst hr
      simp
    · simp only [if_neg hx] at h
      cases hm : splitOnce c xs with
      | none => rw [hm] at h; cases h
      | some p =>
        obtain ⟨l2, r2⟩ := p
        rw [hm] at h
        simp only [Option.some.injEq, Prod.mk.injEq] at h
        obtain ⟨-, hr⟩ := h
        subst hr
        have := ih l2 r2 hm
        simp
        omega

/-- Rust `str::split(c)`: all segments between occurrences of `c`
(an empty trailing segment included, as in Rust; the `[]` fallback of the inner
match is unreachable, as the recursive call never returns an empty list). -/
def splitChar (c : Char) : Str → List Str
  | [] => [[]]
  | x :: xs =>
    if x = c then [] :: splitChar c xs
    else
      match splitChar c xs with
      | s :: ss => (x :: s) :: ss
      | [] => [[x]]

/-- Rust `str::trim` (whitespace stripped from both ends). -/
def trim (s : Str) : Str :=
  ((s.dropWhile Char.isWhitespace).reverse.dropWhile Char.isWhitespace).reverse

/-- Rust `str::starts_with(c)` for a single character. -/
def startsWith (c : Char) (s : Str) : Bool := s.head? = some c

/-- Rust `str::ends_with(c)` for a single character. -/
def endsWith (c : Char) (s : Str) : Bool := s.getLast? = some c

end Str

/-! ## Decimal numerals

Digit-list machinery shared by the model of `Display for f64` and of
`f64::from_str`. -/

/-- The decimal digits of `n`, most significant first (`[0]` for zero). -/
def natDigits (n : Nat) : List Nat :=
  if h : n < 10 then [n] else natDigits (n / 10) ++ [n % 10]
termination_by n
decreasing_by exact Nat.div_lt_self (by omega) (by norm_num)

/-- Read back a most-significant-first digit list. -/
def digitsVal (ds : List Nat) : Nat := ds.foldl (fun a d => 10 * a + d) 0

theorem digitsVal_append (xs ys : List Nat) :
    digitsVal (xs ++ ys) = digitsVal xs * 10 ^ ys.length + digitsVal ys := by
  induction ys using List.reverseRecOn with
  | nil => simp [digitsVal]
  | append_singleton ys y ih =>
    simp only [digitsVal, List.foldl_append, List.foldl_cons, List.foldl_nil] at *
    rw [ih]
    simp [List.length_append, pow_succ]
    ring

theorem digitsVal_natDigits (n : Nat) : digitsVal (natDigits n) = n := by
  induction n using Nat.strong_induction_on with
  | _ n ih =>
    rw [natDigits]
    split
    · simp [digitsVal]
    · rename_i h
      rw [digitsVal_append]
      have hd : n / 10 < n := Nat.div_lt_self (by omega) (by norm_num)
      rw [ih (n / 10) hd]
      simp [digitsVal]
      omega

theorem natDigits_ne_nil (n : Nat) : natDigits n ≠ [] := by
  rw [natDigits]; split <;> simp

theorem natDigits_lt_ten (n : Nat) : ∀ d ∈ natDigits n, d < 10 := by
  induction n using Nat.strong_induction_on with
  | _ n ih =>
    rw [natDigits]
    split
    · rename_i h; simp; omega
    · rename_i h
      intro d hd
      rw [List.mem_append] at hd
      rcases hd with hd | hd
      · exact ih (n / 10) (Nat.div_lt_self (by omega) (by norm_num)) d hd
      · simp at hd; omega

theorem natDigits_length_le (n k : Nat) (h : n < 10 ^ k) (hk : 1 ≤ k) :
    (natDigits n).length ≤ k := by
  induction k generalizing n with
  | zero => omega
  | succ k ih =>
    rw [natDigits]
    split
    · simp
    · rename_i hn
      simp only [List.length_append, List.length_singleton]
      have hk1 : 1 ≤ k := by
        by_contra hc
        have : k = 0 := by omega
        subst this
        simp at h
        omega
      have : n / 10 < 10 ^ k := by
        rw [Nat.div_lt_iff_lt_mul (by norm_num)]
        calc n < 10 ^ (k + 1) := h
        _ = 10 ^ k * 10 := by ring
      have := ih (n / 10) this hk1
      omega

/-! ## The value domain: a model of `f64`

`type Value = f64` in `src/perf/mod.rs`.  See the header for the modelling rules. -/

/-- An IEEE double as observed by this crate: NaN, `-∞`, a finite (decimal) rational,
or `+∞`. -/
inductive Val where
  | nan
  | negInf
  | finite (q : ℚ)
  | posInf
deriving DecidableEq, Repr

namespace Val

/-- `f64` `<=` (always false when NaN is involved). -/
def vle : Val → Val → Bool
  | nan, _ => false
  | _, nan => false
  | negInf, _ => true
  | _, posInf => true
  | finite a, finite b => a ≤ b
  | finite _, negInf => false
  | posInf, finite _ => false
  | posInf, negInf => false

/-- `f64` `<` (always false when NaN is involved). -/
def vlt : Val → Val → Bool
  | nan, _ => false
  | _, nan => false
  | negInf, negInf => false
  | negInf, _ => true
  | _, negInf => false
  | posInf, _ => false
  | _, posInf => true
  | finite a, finite b => a < b

/-- `f64` `==` (`PartialEq`): false on NaN, otherwise value equality. -/
def peq : Val → Val → Bool
  | finite a, finite b => a = b
  | negInf, negInf => true
  | posInf, posInf => true
  | _, _ => false

theorem vlt_eq_false_of_vle {a b : Val} (h : vle a b = true) : vlt b a = false := by
  cases a <;> cases b <;> simp_all [vle, vlt]

/-- A value a finite `f64` can take: a rational whose denominator divides a power
of ten (equivalently, divides `10 ^ denominator`). -/
def IsDecimal : Val → Prop
  | finite q => q.den ∣ 10 ^ q.den
  | nan => False
  | _ => True

/-- A finite decimal value (what a parsed value segment carries). -/
def IsFiniteDecimal : Val → Prop
  | finite q => q.den ∣ 10 ^ q.den
  | _ => False

instance : DecidablePred IsDecimal := by
  intro v; cases v <;> simp [IsDecimal] <;> infer_instance

instance : DecidablePred IsFiniteDecimal := by
  intro v; cases v <;> simp [IsFiniteDecimal] <;> infer_instance

end Val

/-! ## Formatting and parsing numerals

`fmtQ` models `Display for f64` on finite doubles (plain shortest decimal notation);
`parseVal` models `f64::from_str` (the grammar documented in `std`), evaluated
exactly over the rationals. -/

/-- The character for a decimal digit. -/
def digitChar (d : Nat) : Char := Char.ofNat (48 + d)

/-- Decimal numeral of `n` (as characters, no sign). -/
def renderNat (n : Nat) : Str := (natDigits n).map digitChar

/-- The least `e` with `d ∣ 10 ^ e`, if `d` divides a power of ten at all
(searching up to `d` suffices, since `d ∣ 10 ^ k` for some `k` implies
`d ∣ 10 ^ d`). -/
def decExp (d : Nat) : Option Nat :=
  (List.range (d + 1)).find? (fun k => 10 ^ k % d == 0)

/-- The digit block of a finite positive decimal `n / d` (with `d ∣ 10 ^ e`):
integer part, then for `e ≥ 1` a point and exactly `e` fraction digits. -/
def fmtQnum (n d e : Nat) : Str :=
  let m := n * (10 ^ e / d)
  if e = 0 then renderNat m
  else
    renderNat (m / 10 ^ e) ++
      '.' :: (List.replicate (e - (natDigits (m % 10 ^ e)).length) '0' ++
        renderNat (m % 10 ^ e))

/-- `Display for f64`, finite case: sign followed by the exact decimal expansion.
A rational not of the form `m / 10 ^ e` is no double; it renders as "0"
(unreachable for the modelled program). -/
def fmtQ (q : ℚ) : Str :=
  match decExp q.den with
  | none => ['0']
  | some e => (if q < 0 then ['-'] else []) ++ fmtQnum q.num.natAbs q.den e

/-- `Display for f64`. -/
def fmtVal : Val → Str
  | .nan => ['N', 'a', 'N']
  | .negInf => ['-', 'i', 'n', 'f']
  | .posInf => ['i', 'n', 'f']
  | .finite q => fmtQ q

/-- Numeric value of a digit character. -/
def charDigit (c : Char) : Nat := c.toNat - 48

/-- Value of a digit-character block, most significant first. -/
def chNat (s : Str) : Nat := digitsVal (s.map charDigit)

/-- Strip one leading `+`/`-` (the `Sign?` of the `from_str` grammar);
`true` means negative. -/
def stripSign : Str → (Bool × Str)
  | [] => (false, [])
  | c :: r =>
    if c = '+' then (false, r)
    else if c = '-' then (true, r)
    else (false, c :: r)

/-- Case-insensitive comparison against an (already lower-case) literal. -/
def lowerEq (s t : Str) : Bool := s.map Char.toLower == t

/-- The optional exponent suffix of the `from_str` grammar:
empty, or `e`/`E`, an optional sign and at least one digit, consuming the rest. -/
def parseExp : Str → Option Int
  | [] => some 0
  | c :: r =>
    if c = 'e' ∨ c = 'E' then
      let (neg, r2) := stripSign r
      let ds := r2.takeWhile Char.isDigit
      let rest := r2.dropWhile Char.isDigit
      if ds.isEmpty || !rest.isEmpty then none
      else some (if neg then -(chNat ds : Int) else (chNat ds : Int))
    else none

/-- Exact value of integer digits, fraction digits and exponent. -/
def decimalValue (ip fp : Str) (ex : Int) : ℚ :=
  ((chNat ip : ℚ) + (chNat fp : ℚ) / 10 ^ fp.length) * 10 ^ ex

/-- `Number ::= Count '.'? Count? Exp? | '.' Count Exp?` of the `from_str`
grammar, evaluated exactly. -/
def parseDecCore (s : Str) : Option ℚ :=
  let ip := s.takeWhile Char.isDigit
  let r1 := s.dropWhile Char.isDigit
  match r1 with
  | c :: r2 =>
    if c = '.' then
      let fp := r2.takeWhile Char.isDigit
      let r3 := r2.dropWhile Char.isDigit
      if ip.isEmpty && fp.isEmpty then none
      else (parseExp r3).map (decimalValue ip fp)
    else if ip.isEmpty then none
    else (parseExp (c :: r2)).map (decimalValue ip [])
  | [] => if ip.isEmpty then none else (parseExp []).map (decimalValue ip [])

/-- `f64::from_str`:
`Float ::= Sign? ('inf' | 'infinity' | 'nan' | Number)`, case-insensitive
literals, exact decimal evaluation.  `none` is a parse failure. -/
def parseVal (s : Str) : Option Val :=
  let (neg, s1) := stripSign s
  if lowerEq s1 ['i', 'n', 'f'] || lowerEq s1 ['i', 'n', 'f', 'i', 'n', 'i', 't', 'y'] then
    some (if neg then .negInf else .posInf)
  else if lowerEq s1 ['n', 'a', 'n'] then some .nan
  else (parseDecCore s1).map (fun q => Val.finite (if neg then -q else q))

/-! ### Facts about digit characters and numerals -/

theorem digit_toNat {c : Char} (h : c.isDigit = true) : 48 ≤ c.toNat ∧ c.toNat ≤ 57 := by
  simpa [Char.isDigit] using h

theorem digit_ne {c c' : Char} (h : c.isDigit = true)
    (h' : c'.toNat < 48 ∨ 57 < c'.toNat) : c ≠ c' := by
  intro hc
  subst hc
  have := digit_toNat h
  omega

theorem toLower_digit {c : Char} (h : c.isDigit = true) : c.toLower = c := by
  have := digit_toNat h
  unfold Char.toLower
  rw [if_neg]
  omega

theorem digit_not_ws {c : Char} (h : c.isDigit = true) : c.isWhitespace = false := by
  have hb := digit_toNat h
  by_contra hw
  simp only [Bool.not_eq_false, Char.isWhitespace] at hw
  rcases Bool.or_eq_true_iff.mp hw with hw | hw
  · rcases Bool.or_eq_true_iff.mp hw with hw | hw
    · rcases Bool.or_eq_true_iff.mp hw with hw | hw <;>
        · simp only [decide_eq_true_eq] at hw; subst hw; simp at hb
    · simp only [decide_eq_true_eq] at hw; subst hw; simp at hb
  · simp only [decide_eq_true_eq] at hw; subst hw; simp at hb

theorem digitChar_isDigit {d : Nat} (h : d < 10) : (digitChar d).isDigit = true := by
  interval_cases d <;> decide

theorem charDigit_digitChar {d : Nat} (h : d < 10) : charDigit (digitChar d) = d := by
  interval_cases d <;> decide

theorem renderNat_digits (n : Nat) : ∀ c ∈ renderNat n, c.isDigit = true := by
  intro c hc
  simp only [renderNat, List.mem_map] at hc
  obtain ⟨d, hd, rfl⟩ := hc
  exact digitChar_isDigit (natDigits_lt_ten n d hd)

theorem renderNat_ne_nil (n : Nat) : renderNat n ≠ [] := by
  simp [renderNat, natDigits_ne_nil]

theorem renderNat_head (n : Nat) :
    ∃ c rest, renderNat n = c :: rest ∧ c.isDigit = true := by
  cases hr : renderNat n with
  | nil => exact absurd hr (renderNat_ne_nil n)
  | cons c rest =>
    exact ⟨c, rest, rfl, renderNat_digits n c (by rw [hr]; simp)⟩

theorem chNat_renderNat (n : Nat) : chNat (renderNat n) = n := by
  unfold chNat renderNat
  rw [List.map_map]
  have hmap : (natDigits n).map (charDigit ∘ digitChar) = (natDigits n).map id :=
    List.map_congr_left (fun d hd => charDigit_digitChar (natDigits_lt_ten n d hd))
  rw [hmap, List.map_id]
  exact digitsVal_natDigits n

theorem chNat_replicate_zero (k : Nat) (s : Str) :
    chNat (List.replicate k '0' ++ s) = chNat s := by
  induction k with
  | zero => simp
  | succ k ih =>
    rw [List.replicate_succ]
    simpa [chNat, digitsVal, charDigit] using ih

/-- `takeWhile`/`dropWhile` over a block that satisfies the predicate followed by a
block that does not start with it. -/
theorem takedrop_app {p : Char → Bool} :
    ∀ xs ys : Str, (∀ c ∈ xs, p c = true) → (∀ c, ys.head? = some c → p c = false) →
      (xs ++ ys).takeWhile p = xs ∧ (xs ++ ys).dropWhile p = ys := by
  intro xs
  induction xs with
  | nil =>
    intro ys _ hy
    cases ys with
    | nil => simp
    | cons y ys' =>
      have := hy y rfl
      simp [List.takeWhile, List.dropWhile, this]
  | cons x xs ih =>
    intro ys hx hy
    have hpx := hx x (by simp)
    have h2 := ih ys (fun c hc => hx c (by simp [hc])) hy
    simp [List.takeWhile, List.dropWhile, hpx, h2.1, h2.2]

theorem takedrop_all {p : Char → Bool} (xs : Str) (hx : ∀ c ∈ xs, p c = true) :
    xs.takeWhile p = xs ∧ xs.dropWhile p = [] := by
  have := takedrop_app xs [] hx (by intro c hc; simp at hc)
  simpa using this

/-! ### The numeral round trip -/

theorem decExp_mod {d e : Nat} (h : decExp d = some e) : 10 ^ e % d = 0 := by
  have := List.find?_some h
  simpa using this

theorem decExp_exists {d : Nat} (h : d ∣ 10 ^ d) : ∃ e, decExp d = some e := by
  have hs : (decExp d).isSome := by
    rw [decExp, List.find?_isSome]
    refine ⟨d, by simp, ?_⟩
    simp only [beq_iff_eq]
    exact Nat.mod_eq_zero_of_dvd h
  obtain ⟨e, he⟩ := Option.isSome_iff_exists.mp hs
  exact ⟨e, he⟩

theorem parseDecCore_digits (ds : Str) (hne : ds ≠ [])
    (hds : ∀ c ∈ ds, c.isDigit = true) :
    parseDecCore ds = some ((chNat ds : ℚ)) := by
  obtain ⟨ht, hdw⟩ := takedrop_all ds hds
  unfold parseDecCore
  rw [ht, hdw]
  simp [List.isEmpty_iff, hne, parseExp, decimalValue, chNat, digitsVal]

theorem parseDecCore_digits_point (as bs : Str) (ha : as ≠ [])
    (hda : ∀ c ∈ as, c.isDigit = true) (hdb : ∀ c ∈ bs, c.isDigit = true) :
    parseDecCore (as ++ '.' :: bs) =
      some ((chNat as : ℚ) + (chNat bs : ℚ) / 10 ^ bs.length) := by
  have h1 := takedrop_app as ('.' :: bs) hda
    (by intro c hc; simp at hc; subst hc; decide)
  obtain ⟨h2, h3⟩ := takedrop_all bs hdb
  unfold parseDecCore
  rw [h1.1, h1.2]
  simp [h2, h3, List.isEmpty_iff, ha, parseExp, decimalValue]

/-- The numeric value of the digit block `fmtQnum n d e` is exactly `n / d`. -/
theorem fmtQnum_parse (n d e : Nat) (hd : 0 < d) (he : 10 ^ e % d = 0) :
    parseDecCore (fmtQnum n d e) = some ((n : ℚ) / (d : ℚ)) := by
  have hdvd : d ∣ 10 ^ e := Nat.dvd_of_mod_eq_zero he
  by_cases he0 : e = 0
  · subst he0
    have hd1 : d = 1 := Nat.dvd_one.mp (by simpa using hdvd)
    subst hd1
    have hb : fmtQnum n 1 0 = renderNat n := by
      unfold fmtQnum
      norm_num
    rw [hb, parseDecCore_digits (renderNat n) (renderNat_ne_nil n) (renderNat_digits n),
      chNat_renderNat]
    norm_num
  · -- e ≥ 1: integer digits, a point, and exactly e fraction digits
    obtain ⟨c, hc⟩ := hdvd
    have hc0 : c ≠ 0 := by
      intro h0
      rw [h0, Nat.mul_zero] at hc
      exact absurd hc (by positivity)
    have hcdiv : 10 ^ e / d = c := by
      rw [hc]
      exact Nat.mul_div_cancel_left c hd
    set m := n * (10 ^ e / d) with hm
    have hblt : m % 10 ^ e < 10 ^ e := Nat.mod_lt _ (by positivity)
    have hlen : (natDigits (m % 10 ^ e)).length ≤ e :=
      natDigits_length_le _ e hblt (by omega)
    have hb : fmtQnum n d e =
        renderNat (m / 10 ^ e) ++ '.' ::
          (List.replicate (e - (natDigits (m % 10 ^ e)).length) '0' ++
            renderNat (m % 10 ^ e)) := by
      unfold fmtQnum
      rw [if_neg he0]
    have hfrac : ∀ ch ∈ List.replicate (e - (natDigits (m % 10 ^ e)).length) '0' ++
        renderNat (m % 10 ^ e), ch.isDigit = true := by
      intro ch hch
      rcases List.mem_append.mp hch with hch | hch
      · rw [List.eq_of_mem_replicate hch]; decide
      · exact renderNat_digits _ ch hch
    rw [hb, parseDecCore_digits_point _ _ (renderNat_ne_nil _)
      (renderNat_digits _) hfrac]
    have hlfrac : (List.replicate (e - (natDigits (m % 10 ^ e)).length) '0' ++
        renderNat (m % 10 ^ e)).length = e := by
      simp only [List.length_append, List.length_replicate, renderNat,
        List.length_map]
      omega
    rw [hlfrac, chNat_replicate_zero, chNat_renderNat, chNat_renderNat]
    congr 1
    have hP : ((10 : ℚ)) ^ e ≠ 0 := by positivity
    have hsplit : ((m : ℚ)) = ((m / 10 ^ e : ℕ) : ℚ) * (10 : ℚ) ^ e +
        ((m % 10 ^ e : ℕ) : ℚ) := by
      have := Nat.div_add_mod m (10 ^ e)
      have : ((10 ^ e * (m / 10 ^ e) + m % 10 ^ e : ℕ) : ℚ) = ((m : ℕ) : ℚ) := by
        exact_mod_cast congrArg (fun x : ℕ => (x : ℚ)) this
      push_cast at this
      linarith
    have hmc : (m : ℚ) = (n : ℚ) * (c : ℚ) := by
      rw [hm, hcdiv]; push_cast; ring
    have hdc : ((10 : ℚ)) ^ e = (d : ℚ) * (c : ℚ) := by exact_mod_cast hc
    have hcq : (c : ℚ) ≠ 0 := by exact_mod_cast hc0
    have hdq : (d : ℚ) ≠ 0 := by
      have : (0 : ℕ) < d := hd
      positivity
    field_simp
    rw [← hsplit, hmc, hdc]
    ring

theorem stripSign_digit {c : Char} (s : Str) (h : c.isDigit = true) :
    stripSign (c :: s) = (false, c :: s) := by
  have h1 : c ≠ '+' := digit_ne h (by decide)
  have h2 : c ≠ '-' := digit_ne h (by decide)
  simp [stripSign, h1, h2]

theorem stripSign_neg (s : Str) : stripSign ('-' :: s) = (true, s) := by
  simp [stripSign]

theorem lowerEq_cons_ne {c c' : Char} (s t : Str) (h : c.toLower ≠ c') :
    lowerEq (c :: s) (c' :: t) = false := by
  simp [lowerEq, List.cons.injEq, h]

theorem lowerEq_digit_head {c : Char} (s : Str) (hc : c.isDigit = true) :
    lowerEq (c :: s) ['i', 'n', 'f'] = false ∧
    lowerEq (c :: s) ['i', 'n', 'f', 'i', 'n', 'i', 't', 'y'] = false ∧
    lowerEq (c :: s) ['n', 'a', 'n'] = false := by
  have hl := toLower_digit hc
  refine ⟨?_, ?_, ?_⟩ <;>
    · apply lowerEq_cons_ne
      rw [hl]
      exact digit_ne hc (by decide)

theorem fmtQnum_head (n d e : Nat) :
    ∃ c rest, fmtQnum n d e = c :: rest ∧ c.isDigit = true := by
  unfold fmtQnum
  by_cases he0 : e = 0
  · obtain ⟨c, rest, hcr, hcd⟩ := renderNat_head (n * (10 ^ e / d))
    exact ⟨c, rest, by rw [if_pos he0, hcr], hcd⟩
  · obtain ⟨c, rest, hcr, hcd⟩ := renderNat_head (n * (10 ^ e / d) / 10 ^ e)
    refine ⟨c, rest ++ '.' ::
      (List.replicate (e - (natDigits (n * (10 ^ e / d) % 10 ^ e)).length) '0' ++
        renderNat (n * (10 ^ e / d) % 10 ^ e)), ?_, hcd⟩
    rw [if_neg he0, hcr]
    rfl

/-- On a finite decimal rational, parsing undoes formatting. -/
theorem parseVal_fmtQ (q : ℚ) (h : q.den ∣ 10 ^ q.den) :
    parseVal (fmtQ q) = some (Val.finite q) := by
  have hd : 0 < q.den := q.den_pos
  obtain ⟨e, he⟩ := decExp_exists h
  have hmod := decExp_mod he
  obtain ⟨c, rest, hcr, hcd⟩ := fmtQnum_head q.num.natAbs q.den e
  have hps := fmtQnum_parse q.num.natAbs q.den e hd hmod
  rw [hcr] at hps
  have hle := lowerEq_digit_head rest hcd
  by_cases hq : q < 0
  · have hle0 : q.num ≤ 0 := by
      by_contra hpos
      push_neg at hpos
      have : (0 : ℚ) ≤ q := Rat.num_nonneg.mp (le_of_lt hpos)
      linarith
    have h1 : ((q.num.natAbs : ℕ) : ℤ) = -q.num := Int.ofNat_natAbs_of_nonpos hle0
    have habs : ((q.num.natAbs : ℕ) : ℚ) = -((q.num : ℤ) : ℚ) := by
      rw [← Int.cast_natCast (R := ℚ), h1, Int.cast_neg]
    have hval : -((q.num.natAbs : ℚ) / (q.den : ℚ)) = q := by
      rw [habs, neg_div, neg_neg]
      exact Rat.num_div_den q
    have hfq : fmtQ q = '-' :: fmtQnum q.num.natAbs q.den e := by
      unfold fmtQ
      rw [he, if_pos hq]
      rfl
    rw [hfq, hcr]
    unfold parseVal
    rw [stripSign_neg]
    simp [hle.1, hle.2.1, hle.2.2, hps, hval]
  · have h0 : (0 : ℚ) ≤ q := not_lt.mp hq
    have hge : 0 ≤ q.num := Rat.num_nonneg.mpr h0
    have h1 : ((q.num.natAbs : ℕ) : ℤ) = q.num := Int.natAbs_of_nonneg hge
    have habs : ((q.num.natAbs : ℕ) : ℚ) = ((q.num : ℤ) : ℚ) := by
      rw [← Int.cast_natCast (R := ℚ), h1]
    have hval : (q.num.natAbs : ℚ) / (q.den : ℚ) = q := by
      rw [habs]
      exact Rat.num_div_den q
    have hfq : fmtQ q = fmtQnum q.num.natAbs q.den e := by
      unfold fmtQ
      rw [he, if_neg hq]
      rfl
    rw [hfq, hcr]
    unfold parseVal
    rw [stripSign_digit rest hcd]
    simp [hle.1, hle.2.1, hle.2.2, hps, hval]

/-- `parseVal` undoes `fmtVal` on every non-NaN value a double can take. -/
theorem parseVal_fmtVal (v : Val) (h : v.IsDecimal) :
    parseVal (fmtVal v) = some v := by
  cases v with
  | nan => exact absurd h (by simp [Val.IsDecimal])
  | negInf => rfl
  | posInf => rfl
  | finite q => exact parseVal_fmtQ q h

/-! ## `src/error.rs`: the closed error taxonomy

`ParseValueError` wraps Rust's opaque `ParseFloatError`, which carries no data
worth modelling. -/

inductive PerfdataParseError where
  | missingEqualsSign
  | missingValue
  | missingLabel
  | parseValueError
  | thresholdEmpty
  | unknownUnit (unit : Str)
  | labelContainsSingleQuote
deriving DecidableEq, Repr

/-! ## `src/monitoring_status.rs` -/

inductive MonitoringStatus where
  | OK
  | Warning
  | Critical
  | Unknown
deriving DecidableEq, Repr

def MonitoringStatus.exit_code : MonitoringStatus → Int
  | .OK => 0
  | .Warning => 1
  | .Critical => 2
  | .Unknown => 3

/-! ## `src/thresholds.rs` -/

/-- `ThresholdRange { alert_inside, start, end }`; the Rust field `end` is a Lean
keyword and is called `end_` here. -/
structure ThresholdRange where
  alert_inside : Bool
  start : Val
  end_ : Val
deriving DecidableEq, Repr

namespace ThresholdRange

/-- `ThresholdRange::new`: start and end are swapped when `end < start`. -/
def new (inside : Bool) (start end_ : Val) : ThresholdRange :=
  if Val.vlt end_ start then ⟨inside, end_, start⟩ else ⟨inside, start, end_⟩

/-- `ThresholdRange::outside`. -/
def outside (start end_ : Val) : ThresholdRange := new false start end_

/-- `ThresholdRange::inside`. -/
def inside (start end_ : Val) : ThresholdRange := new true start end_

/-- `ThresholdRange::above_pos`. -/
def above_pos (limit_top : Val) : ThresholdRange := outside (.finite 0) limit_top

/-- `ThresholdRange::below`. -/
def below (limit_bottom : Val) : ThresholdRange := outside limit_bottom .posInf

/-- `ThresholdRange::above`. -/
def above (limit_top : Val) : ThresholdRange := outside .negInf limit_top

/-- `ThresholdRange::is_alert`. -/
def is_alert (r : ThresholdRange) (value : Val) : Bool :=
  let is_inside := Val.vle r.start value && Val.vle value r.end_
  if r.alert_inside then is_inside else !is_inside

end ThresholdRange

/-- `Display for ThresholdRange` (the five-case match, in source order). -/
def fmtThresholdRange (r : ThresholdRange) : Str :=
  let inside : Str := if r.alert_inside then ['@'] else []
  if r.start = .negInf ∧ r.end_ = .posInf then inside ++ ['~', ':']
  else if r.start = .finite 0 ∧ r.end_ = .posInf then inside ++ ['0', ':']
  else if r.start = .finite 0 then inside ++ fmtVal r.end_
  else if r.start = .negInf then inside ++ '~' :: ':' :: fmtVal r.end_
  else inside ++ fmtVal r.start ++ ':' :: fmtVal r.end_

/-! ## `src/perf/mod.rs` and `src/perf/data.rs` -/

/-- `Unit` in `src/perf/mod.rs` (`Unit` is taken in Lean, hence `PerfUnit`). -/
inductive PerfUnit where
  | None (v : Val)
  | Percentage (v : Val)
  | Seconds (v : Val)
  | Bytes (v : Val)
  | Counter (v : Val)
  | Undetermined
deriving DecidableEq, Repr

/-- `Display for Unit`. -/
def fmtPerfUnit : PerfUnit → Str
  | .None u => fmtVal u
  | .Percentage u => fmtVal u ++ ['%']
  | .Seconds u => fmtVal u ++ ['s']
  | .Bytes u => fmtVal u ++ ['b']
  | .Counter u => fmtVal u ++ ['c']
  | .Undetermined => ['U']

/-- `Perfdata` from `src/perf/data.rs`. -/
structure Perfdata where
  label : Str
  unit : PerfUnit
  warn : Option ThresholdRange
  crit : Option ThresholdRange
  min : Option Val
  max : Option Val
deriving DecidableEq, Repr

namespace Perfdata

/-- `Perfdata::new`. -/
def new (label : Str) (unit : PerfUnit) : Perfdata :=
  ⟨label, unit, none, none, none, none⟩

/-- `Perfdata::unit` (the constructor; `unit` is the field name here, hence the
prime). -/
def unit' (label : Str) (value : Val) : Perfdata := new label (.None value)

/-- `Perfdata::percentage`. -/
def percentage (label : Str) (value : Val) : Perfdata := new label (.Percentage value)

/-- `Perfdata::seconds`. -/
def seconds (label : Str) (value : Val) : Perfdata := new label (.Seconds value)

/-- `Perfdata::bytes`. -/
def bytes (label : Str) (value : Val) : Perfdata := new label (.Bytes value)

/-- `Perfdata::counter`. -/
def counter (label : Str) (value : Val) : Perfdata := new label (.Counter value)

/-- `Perfdata::undetermined`. -/
def undetermined (label : Str) : Perfdata := new label .Undetermined

/-- `Perfdata::with_min`. -/
def with_min (p : Perfdata) (value : Val) : Perfdata := { p with min := some value }

/-- `Perfdata::with_max`. -/
def with_max (p : Perfdata) (value : Val) : Perfdata := { p with max := some value }

/-- `Perfdata::with_warn`. -/
def with_warn (p : Perfdata) (range : ThresholdRange) : Perfdata :=
  { p with warn := some range }

/-- `Perfdata::with_crit`. -/
def with_crit (p : Perfdata) (range : ThresholdRange) : Perfdata :=
  { p with crit := some range }

/-- `Perfdata::value`. -/
def value (p : Perfdata) : Option Val :=
  match p.unit with
  | .None v => some v
  | .Percentage v => some v
  | .Seconds v => some v
  | .Bytes v => some v
  | .Counter v => some v
  | .Undetermined => none

/-- `Perfdata::is_warn`. -/
def is_warn (p : Perfdata) : Bool :=
  match p.value with
  | some v =>
    match p.warn with
    | some range => range.is_alert v
    | none => false
  | none => false

/-- `Perfdata::is_crit`. -/
def is_crit (p : Perfdata) : Bool :=
  match p.value with
  | some v =>
    match p.crit with
    | some range => range.is_alert v
    | none => false
  | none => false

/-- `Perfdata::status`. -/
def status (p : Perfdata) : MonitoringStatus :=
  if p.is_crit then .Critical
  else if p.is_warn then .Warning
  else .OK

/-- `Perfdata::has_any_thresholds_or_limits`. -/
def has_any_thresholds_or_limits (p : Perfdata) : Bool :=
  p.warn.isSome || p.crit.isSome || p.min.isSome || p.max.isSome

end Perfdata

/-- `fmt_threshold`: an absent field renders as an empty segment before its `;`. -/
def fmt_threshold (fmtT : α → Str) : Option α → Str
  | none => [';']
  | some threshold => fmtT threshold ++ [';']

/-- `Display for Perfdata`. -/
def fmtPerfdata (p : Perfdata) : Str :=
  '\'' :: p.label ++ '\'' :: '=' :: fmtPerfUnit p.unit ++ [';'] ++
    (if p.has_any_thresholds_or_limits then
      fmt_threshold fmtThresholdRange p.warn ++ fmt_threshold fmtThresholdRange p.crit ++
        fmt_threshold fmtVal p.min ++ fmt_threshold fmtVal p.max
    else [])

/-! ## `src/perf/dataset.rs` -/

/-- `PerfdataSet`. -/
structure PerfdataSet where
  data : List Perfdata
deriving DecidableEq, Repr

namespace PerfdataSet

/-- `PerfdataSet::new`. -/
def new : PerfdataSet := ⟨[]⟩

/-- `PerfdataSet::add`. -/
def add (s : PerfdataSet) (pd : Perfdata) : PerfdataSet := ⟨s.data ++ [pd]⟩

/-- `PerfdataSet::is_empty`. -/
def is_empty (s : PerfdataSet) : Bool := s.data.isEmpty

/-- `PerfdataSet::critical` (the filtered iterator, as a list). -/
def critical (s : PerfdataSet) : List Perfdata := s.data.filter Perfdata.is_crit

/-- `PerfdataSet::has_critical` (`critical().next().is_some()`). -/
def has_critical (s : PerfdataSet) : Bool := s.critical.head?.isSome

/-- `PerfdataSet::warning`. -/
def warning (s : PerfdataSet) : List Perfdata := s.data.filter Perfdata.is_warn

/-- `PerfdataSet::has_warning`. -/
def has_warning (s : PerfdataSet) : Bool := s.warning.head?.isSome

/-- `PerfdataSet::status`. -/
def status (s : PerfdataSet) : MonitoringStatus :=
  if s.has_critical then .Critical
  else if s.has_warning then .Warning
  else .OK

end PerfdataSet

/-- `Display for PerfdataSet` body: records joined by single spaces
(a space after each record except the last). -/
def fmtPerfdataList : List Perfdata → Str
  | [] => []
  | [p] => fmtPerfdata p
  | p :: rest => fmtPerfdata p ++ ' ' :: fmtPerfdataList rest

/-- `Display for PerfdataSet`. -/
def fmtPerfdataSet (s : PerfdataSet) : Str := fmtPerfdataList s.data

/-! ## `src/parser.rs` -/

/-- Rust `str::find(predicate)`: index of the first character satisfying `p`. -/
def findPred (p : Char → Bool) : Str → Option Nat
  | [] => none
  | x :: xs => if p x then some 0 else (findPred p xs).map (· + 1)

/-- Rust `str::find(char)`. -/
def findChar (c : Char) : Str → Option Nat := findPred (· = c)

/-- `parse_label`.  `none` models the Rust panic: the slice `&label[1..len-1]`
aborts when the trimmed label is the single character `'` (both `starts_with`
and `ends_with` hold on it, and the slice bounds are `1..0`). -/
def parse_label (input : Str) : Option (Except PerfdataParseError Str) :=
  let label := Str.trim input
  let stripped : Option Str :=
    if Str.startsWith '\'' label && Str.endsWith '\'' label then
      if label.length ≥ 2 then some ((label.drop 1).dropLast) else none
    else some label
  match stripped with
  | none => none
  | some label =>
    if '\'' ∈ label then some (.error .labelContainsSingleQuote)
    else if label = [] then some (.error .missingLabel)
    else some (.ok label)

/-- `parse_perfdata_with_unit`. -/
def parse_perfdata_with_unit (label value : Str) :
    Except PerfdataParseError Perfdata :=
  if value = ['U'] || value = ['u'] then .ok (Perfdata.undetermined label)
  else
    let split :=
      match findPred (fun c => !(c = '.' || c = '-' || c.isDigit)) value with
      | some i => (value.take i, value.drop i)
      | none => (value, ([] : Str))
    match parseVal split.1 with
    | none => .error .parseValueError
    | some parsed_value =>
      if split.2 = [] then .ok (Perfdata.unit' label parsed_value)
      else if split.2 = ['s'] then .ok (Perfdata.seconds label parsed_value)
      else if split.2 = ['b'] then .ok (Perfdata.bytes label parsed_value)
      else if split.2 = ['c'] then .ok (Perfdata.counter label parsed_value)
      else if split.2 = ['%'] then .ok (Perfdata.percentage label parsed_value)
      else .error (.unknownUnit split.2)

/-- `next_datapoint`: advances the `split(';')` iterator by one; an empty
segment is reported as absent. -/
def next_datapoint : List Str → Option Str × List Str
  | [] => (none, [])
  | dp :: rest => (if dp = [] then none else some dp, rest)

/-- `parse_range`. -/
def parse_range (range : Str) (default : Val) : Except PerfdataParseError Val :=
  if range = [] then .ok default
  else if range = ['~'] then .ok .negInf
  else
    match parseVal range with
    | some v => .ok v
    | none => .error .parseValueError

/-- `FromStr for ThresholdRange`. -/
def ThresholdRange.from_str (s : Str) : Except PerfdataParseError ThresholdRange :=
  if s = [] then .error .thresholdEmpty
  else
    let inside := Str.startsWith '@' s
    let range := if inside then s.drop 1 else s
    match Str.splitOnce ':' range with
    | some (st, en) =>
      match parse_range st (.finite 0) with
      | .error e => .error e
      | .ok parsed_start =>
        match parse_range en .posInf with
        | .error e => .error e
        | .ok parsed_end =>
          if inside then .ok (ThresholdRange.inside parsed_start parsed_end)
          else .ok (ThresholdRange.outside parsed_start parsed_end)
    | none =>
      match parse_range range .posInf with
      | .error e => .error e
      | .ok parsed_end =>
        if inside then .ok (ThresholdRange.inside (.finite 0) parsed_end)
        else .ok (ThresholdRange.outside (.finite 0) parsed_end)

/-- The `if let Some(warn) = next_datapoint(..)` block of `TryFrom`. -/
def applyWarn (pd : Perfdata) : Option Str → Except PerfdataParseError Perfdata
  | none => .ok pd
  | some warn =>
    match ThresholdRange.from_str warn with
    | .error e => .error e
    | .ok parsed_warn => .ok (pd.with_warn parsed_warn)

/-- The `if let Some(crit) = next_datapoint(..)` block of `TryFrom`. -/
def applyCrit (pd : Perfdata) : Option Str → Except PerfdataParseError Perfdata
  | none => .ok pd
  | some crit =>
    match ThresholdRange.from_str crit with
    | .error e => .error e
    | .ok parsed_crit => .ok (pd.with_crit parsed_crit)

/-- The `if let Some(min) = next_datapoint(..)` block of `TryFrom`. -/
def applyMin (pd : Perfdata) : Option Str → Except PerfdataParseError Perfdata
  | none => .ok pd
  | some min =>
    match parseVal min with
    | none => .error .parseValueError
    | some parsed_min => .ok (pd.with_min parsed_min)

/-- The `if let Some(max) = next_datapoint(..)` block of `TryFrom`. -/
def applyMax (pd : Perfdata) : Option Str → Except PerfdataParseError Perfdata
  | none => .ok pd
  | some max =>
    match parseVal max with
    | none => .error .parseValueError
    | some parsed_max => .ok (pd.with_max parsed_max)

/-- The body of `TryFrom<&str> for Perfdata` after the label was parsed: the
value datapoint is mandatory, warn/crit/min/max are set when present and
non-empty. -/
def tryFromData (parsed_label : Str) (datapoints : List Str) :
    Except PerfdataParseError Perfdata :=
  let (v, dps1) := next_datapoint datapoints
  match v with
  | none => .error .missingValue
  | some value =>
    match parse_perfdata_with_unit parsed_label value with
    | .error e => .error e
    | .ok pd0 =>
      let (w, dps2) := next_datapoint dps1
      match applyWarn pd0 w with
      | .error e => .error e
      | .ok pd1 =>
        let (c, dps3) := next_datapoint dps2
        match applyCrit pd1 c with
        | .error e => .error e
        | .ok pd2 =>
          let (m, dps4) := next_datapoint dps3
          match applyMin pd2 m with
          | .error e => .error e
          | .ok pd3 =>
            let (x, _) := next_datapoint dps4
            applyMax pd3 x

/-- `TryFrom<&str> for Perfdata`.  `none` models a panic (see `parse_label`). -/
def tryFrom (value : Str) : Option (Except PerfdataParseError Perfdata) :=
  match Str.splitOnce '=' value with
  | none => some (.error .missingEqualsSign)
  | some (label, data) =>
    match parse_label label with
    | none => none
    | some (.error e) => some (.error e)
    | some (.ok parsed_label) =>
      some (tryFromData parsed_label (Str.splitChar ';' data))

theorem findPred_spec {p : Char → Bool} :
    ∀ (l : Str) i, findPred p l = some i →
      i < l.length ∧ ∃ x, l.get? i = some x ∧ p x = true := by
  intro l
  induction l with
  | nil => intro i h; simp [findPred] at h
  | cons x xs ih =>
    intro i h
    simp only [findPred] at h
    by_cases hp : p x
    · rw [if_pos hp] at h
      cases h
      exact ⟨by simp, x, rfl, hp⟩
    · rw [if_neg hp] at h
      cases hf : findPred p xs with
      | none => rw [hf] at h; cases h
      | some j =>
        rw [hf] at h
        simp only [Option.map_some', Option.some.injEq] at h
        subst h
        obtain ⟨hlt, y, hy, hpy⟩ := ih j hf
        exact ⟨by simpa using hlt, y, by simpa using hy, hpy⟩

/-- `Perfdata::parse_from_list`, the `while let Some(equals_idx)` loop.
`none` models a panic inside a token's `try_from`. -/
def parseListGo (remainder : Str) :
    Option (List (Except PerfdataParseError Perfdata)) :=
  match h1 : findChar '=' remainder with
  | none => some []
  | some equals_idx =>
    match h2 : findChar ' ' (remainder.drop equals_idx) with
    | some data_idx =>
      let left := remainder.take (equals_idx + data_idx)
      let right := remainder.drop (equals_idx + data_idx)
      match parseListGo right with
      | none => none
      | some rest =>
        if left = [] then some rest
        else
          match tryFrom left with
          | none => none
          | some r => some (r :: rest)
    | none =>
      match tryFrom remainder with
      | none => none
      | some r => some [r]
termination_by remainder.length
decreasing_by
  have he := findPred_spec remainder equals_idx h1
  have hs := findPred_spec (remainder.drop equals_idx) data_idx h2
  obtain ⟨helt, e1, he1, hpe⟩ := he
  obtain ⟨hslt, s1, hs1, hps⟩ := hs
  simp only [decide_eq_true_eq] at hpe hps
  subst hpe hps
  have hd1 : data_idx ≠ 0 := by
    intro h0
    subst h0
    rw [List.get?_drop, Nat.add_zero] at hs1
    rw [he1] at hs1
    cases hs1
  simp only [List.length_drop]
  omega

/-- `Perfdata::parse_from_list`. -/
def parse_from_list (s : Str) :
    Option (List (Except PerfdataParseError Perfdata)) :=
  parseListGo (Str.trim s)

/-! ## Supporting order lemmas on `Val` -/

theorem Val.vlt_asymm {a b : Val} (h : Val.vlt b a = true) : Val.vlt a b = false := by
  cases a <;> cases b <;> simp_all [Val.vlt]
  linarith

/-! ## Claims -/

/-- C2 (code bug): the spec claims `Perfdata::try_from` never panics on malformed
input and that label parsing is total, but `parse_label` panics on the input
`'=1`: the label region is the single quote character, `starts_with` and
`ends_with` both see that one character, and the stripping slice
`&label[1..label.len() - 1]` has bounds `1..0`, which aborts.  (`none` is the
model's panic.) -/
theorem C2_tryFrom_panics_on_lone_quote_label :
    tryFrom ['\'', '=', '1'] = none ∧ parse_label ['\''] = none := by decide

/-- C3 counterexample: the claim says the string `@` fails with `ThresholdEmpty`;
in the code the emptiness check runs on the raw input before the `@` is
stripped, so `@` parses successfully. -/
theorem C3_counterexample :
    ThresholdRange.from_str ['@'] ≠ .error .thresholdEmpty := by decide

/-- C3 (amended): the emptiness check precedes the colon split, but it is
performed on the raw input before stripping `@`: only the empty string fails
with `ThresholdEmpty`, while `@` parses as the inside-alerting range `[0, +∞]`. -/
theorem C3_empty_threshold :
    ThresholdRange.from_str [] = .error .thresholdEmpty ∧
    ThresholdRange.from_str ['@'] =
      .ok (ThresholdRange.inside (.finite 0) .posInf) := by decide

/-- C4: `outside(a,b).is_alert v` is the negation of `inside(a,b).is_alert v`
for every value (the two constructions canonicalize identically and differ only
in polarity), and both inclusive boundaries count as inside whenever the bounds
are actual numbers (not NaN). -/
theorem C4_outside_inside_duality (a b v : Val) :
    ((ThresholdRange.outside a b).is_alert v
      = !(ThresholdRange.inside a b).is_alert v) ∧
    (a ≠ .nan → b ≠ .nan →
      (ThresholdRange.inside a b).is_alert a = true ∧
      (ThresholdRange.inside a b).is_alert b = true ∧
      (ThresholdRange.outside a b).is_alert a = false ∧
      (ThresholdRange.outside a b).is_alert b = false) := by
  constructor
  · unfold ThresholdRange.outside ThresholdRange.inside ThresholdRange.new
    cases hlt : Val.vlt b a <;>
      simp [ThresholdRange.is_alert, hlt]
  · intro ha hb
    unfold ThresholdRange.outside ThresholdRange.inside ThresholdRange.new
    cases hlt : Val.vlt b a <;>
      cases a <;> cases b <;>
        simp_all [ThresholdRange.is_alert, Val.vle, Val.vlt, le_of_lt]

theorem C4_witness :
    ((ThresholdRange.outside (.finite 0) (.finite 10)).is_alert (.finite 5)
      = !(ThresholdRange.inside (.finite 0) (.finite 10)).is_alert (.finite 5)) ∧
    ((ThresholdRange.inside (.finite 0) (.finite 10)).is_alert (.finite 0) = true ∧
     (ThresholdRange.inside (.finite 0) (.finite 10)).is_alert (.finite 10) = true ∧
     (ThresholdRange.outside (.finite 0) (.finite 10)).is_alert (.finite 0) = false ∧
     (ThresholdRange.outside (.finite 0) (.finite 10)).is_alert (.finite 10) = false) := by
  have h := C4_outside_inside_duality (.finite 0) (.finite 10) (.finite 5)
  exact ⟨h.1, h.2 (by decide) (by decide)⟩

/-- C5: when `a > b`, `outside(a,b) = outside(b,a)` and `inside(a,b) =
inside(b,a)` (construction swaps a reversed pair), and every range constructed
from non-NaN bounds satisfies `start <= end`. -/
theorem C5_construction_canonicalizes :
    (∀ a b : Val, Val.vlt b a = true →
      ThresholdRange.outside a b = ThresholdRange.outside b a ∧
      ThresholdRange.inside a b = ThresholdRange.inside b a) ∧
    (∀ (i : Bool) (s e : Val), s ≠ .nan → e ≠ .nan →
      Val.vle (ThresholdRange.new i s e).start (ThresholdRange.new i s e).end_
        = true) := by
  constructor
  · intro a b h
    have h2 := Val.vlt_asymm h
    unfold ThresholdRange.outside ThresholdRange.inside ThresholdRange.new
    rw [h, h2]
    simp
  · intro i s e hs he
    unfold ThresholdRange.new
    cases hlt : Val.vlt e s <;>
      cases s <;> cases e <;>
        simp_all [Val.vle, Val.vlt, le_of_lt]

theorem C5_witness :
    (ThresholdRange.outside (.finite 10) (.finite 3)
        = ThresholdRange.outside (.finite 3) (.finite 10) ∧
      ThresholdRange.inside (.finite 10) (.finite 3)
        = ThresholdRange.inside (.finite 3) (.finite 10)) ∧
    Val.vle (ThresholdRange.new false (.finite 10) (.finite 3)).start
      (ThresholdRange.new false (.finite 10) (.finite 3)).end_ = true := by
  exact ⟨C5_construction_canonicalizes.1 (.finite 10) (.finite 3) (by decide),
    C5_construction_canonicalizes.2 false (.finite 10) (.finite 3)
      (by decide) (by decide)⟩

/-- C7: a record whose unit is `Undetermined` has no value, is never in warning
or critical state — even when warn/crit ranges are set — and its status is OK. -/
theorem C7_undetermined_never_alerts (p : Perfdata) (h : p.unit = .Undetermined) :
    p.value = none ∧ p.is_warn = false ∧ p.is_crit = false ∧
    p.status = .OK := by
  have hv : p.value = none := by
    unfold Perfdata.value
    rw [h]
  refine ⟨hv, ?_, ?_, ?_⟩ <;>
    simp [Perfdata.is_warn, Perfdata.is_crit, Perfdata.status, hv]

theorem C7_witness :
    ((Perfdata.undetermined ['x']).with_warn (ThresholdRange.above_pos (.finite 0))
        |>.with_crit (ThresholdRange.above_pos (.finite 0))).value = none ∧
    ((Perfdata.undetermined ['x']).with_warn (ThresholdRange.above_pos (.finite 0))
        |>.with_crit (ThresholdRange.above_pos (.finite 0))).is_warn = false ∧
    ((Perfdata.undetermined ['x']).with_warn (ThresholdRange.above_pos (.finite 0))
        |>.with_crit (ThresholdRange.above_pos (.finite 0))).is_crit = false ∧
    ((Perfdata.undetermined ['x']).with_warn (ThresholdRange.above_pos (.finite 0))
        |>.with_crit (ThresholdRange.above_pos (.finite 0))).status
      = .OK :=
  C7_undetermined_never_alerts _ rfl

theorem filter_head_isSome_iff (l : List Perfdata) (p : Perfdata → Bool) :
    (l.filter p).head?.isSome = true ↔ ∃ x ∈ l, p x = true := by
  rw [List.head?_isSome, ne_eq, List.filter_eq_nil_iff]
  push_neg
  simp

/-- C8: `PerfdataSet::has_critical` / `has_warning` are exactly the existence of
a contained record with `is_crit` / `is_warn`, and `status()` is the worst-of
rule with critical checked before warning. -/
theorem C8_set_status (s : PerfdataSet) :
    (s.has_critical = true ↔ ∃ p ∈ s.data, p.is_crit = true) ∧
    (s.has_warning = true ↔ ∃ p ∈ s.data, p.is_warn = true) ∧
    (s.status = .Critical ↔ ∃ p ∈ s.data, p.is_crit = true) ∧
    (s.status = .Warning ↔
      (¬ ∃ p ∈ s.data, p.is_crit = true) ∧ ∃ p ∈ s.data, p.is_warn = true) ∧
    (s.status = .OK ↔
      (¬ ∃ p ∈ s.data, p.is_crit = true) ∧ ¬ ∃ p ∈ s.data, p.is_warn = true) := by
  have hc := filter_head_isSome_iff s.data Perfdata.is_crit
  have hw := filter_head_isSome_iff s.data Perfdata.is_warn
  have hc' : s.has_critical = true ↔ ∃ p ∈ s.data, p.is_crit = true := hc
  have hw' : s.has_warning = true ↔ ∃ p ∈ s.data, p.is_warn = true := hw
  refine ⟨hc', hw', ?_, ?_, ?_⟩ <;>
    · unfold PerfdataSet.status
      cases hcb : s.has_critical <;> cases hwb : s.has_warning <;>
        simp_all

theorem findPred_take {p : Char → Bool} :
    ∀ (l : Str) i, findPred p l = some i → ∀ c ∈ l.take i, p c = false := by
  intro l
  induction l with
  | nil => intro i _ c hc; simp at hc
  | cons x xs ih =>
    intro i h c hc
    simp only [findPred] at h
    by_cases hp : p x
    · rw [if_pos hp] at h
      cases h
      simp at hc
    · rw [if_neg hp] at h
      cases hf : findPred p xs with
      | none => rw [hf] at h; cases h
      | some j =>
        rw [hf] at h
        simp only [Option.map_some', Option.some.injEq] at h
        subst h
        rw [List.take_succ_cons] at hc
        rcases List.mem_cons.mp hc with hc | hc
        · subst hc; simpa using hp
        · exact ih j hf c hc

theorem findPred_none_all {p : Char → Bool} :
    ∀ l : Str, findPred p l = none → ∀ c ∈ l, p c = false := by
  intro l
  induction l with
  | nil => intro _ c hc; simp at hc
  | cons x xs ih =>
    intro h c hc
    simp only [findPred] at h
    by_cases hp : p x
    · rw [if_pos hp] at h; cases h
    · rw [if_neg hp] at h
      rcases List.mem_cons.mp hc with hc | hc
      · subst hc; simpa using hp
      · cases hf : findPred p xs with
        | none => exact ih hf c hc
        | some j => rw [hf] at h; simp at h

/-- C6: the value segment of a token: the exact segments `U`/`u` give the
`Undetermined` record with no unit parsing; otherwise the segment splits at the
first character that is not an ASCII digit, `.` or `-`; the numeric prefix must
parse as a float (else the numeric-parse error), and the suffix must be one of
`""`/`s`/`b`/`c`/`%` (mapped to no-unit/seconds/bytes/counter/percentage); any
other suffix — a suffix starting with a space included — fails with
`UnknownUnit` carrying the suffix text. -/
theorem C6_value_segment_grammar (label seg : Str) :
    (seg = ['U'] ∨ seg = ['u'] →
      parse_perfdata_with_unit label seg = .ok (Perfdata.undetermined label)) ∧
    (seg ≠ ['U'] → seg ≠ ['u'] →
      ∃ num u, seg = num ++ u ∧
        (∀ c ∈ num, c.isDigit = true ∨ c = '.' ∨ c = '-') ∧
        (∀ c, u.head? = some c → ¬(c.isDigit = true ∨ c = '.' ∨ c = '-')) ∧
        ((parseVal num = none ∧
            parse_perfdata_with_unit label seg = .error .parseValueError) ∨
          (∃ v, parseVal num = some v ∧
            parse_perfdata_with_unit label seg =
              (if u = [] then .ok (Perfdata.unit' label v)
              else if u = ['s'] then .ok (Perfdata.seconds label v)
              else if u = ['b'] then .ok (Perfdata.bytes label v)
              else if u = ['c'] then .ok (Perfdata.counter label v)
              else if u = ['%'] then .ok (Perfdata.percentage label v)
              else .error (.unknownUnit u))))) := by
  constructor
  · intro h
    unfold parse_perfdata_with_unit
    rcases h with h | h <;> simp [h]
  · intro hU hu
    have hif : (seg = ['U'] || seg = ['u']) = false := by
      simp [hU, hu]
    cases hf : findPred (fun c => !(c = '.' || c = '-' || c.isDigit)) seg with
    | none =>
      refine ⟨seg, [], by simp, ?_, by simp, ?_⟩
      · intro c hc
        have h1 := findPred_none_all seg hf c hc
        have h1' : ¬c = '.' → ¬c = '-' → c.isDigit = true := by simpa using h1
        tauto
      · unfold parse_perfdata_with_unit
        rw [hif, hf]
        cases hv : parseVal seg with
        | none => exact Or.inl ⟨rfl, by simp [hv]⟩
        | some v => exact Or.inr ⟨v, rfl, by simp [hv]⟩
    | some i =>
      obtain ⟨hlt, x, hx, hpx⟩ := findPred_spec seg i hf
      have hhead : (seg.drop i).head? = some x := by
        rw [← List.get?_zero, List.get?_drop, Nat.add_zero]
        exact hx
      refine ⟨seg.take i, seg.drop i, (List.take_append_drop i seg).symm, ?_, ?_, ?_⟩
      · intro c hc
        have h1 := findPred_take seg i hf c hc
        have h1' : ¬c = '.' → ¬c = '-' → c.isDigit = true := by simpa using h1
        tauto
      · intro c hch
        rw [hhead] at hch
        cases hch
        have h2 : (¬x = '.' ∧ ¬x = '-') ∧ x.isDigit = false := by simpa using hpx
        intro hcon
        rcases hcon with hd | hd | hd <;> simp_all
      · unfold parse_perfdata_with_unit
        rw [hif, hf]
        cases hv : parseVal (seg.take i) with
        | none => exact Or.inl ⟨rfl, by simp [hv]⟩
        | some v => exact Or.inr ⟨v, rfl, by simp [hv]⟩

theorem C6_witness :
    ∃ num u, (['1', '0', 's'] : Str) = num ++ u ∧
      (∀ c ∈ num, c.isDigit = true ∨ c = '.' ∨ c = '-') ∧
      (∀ c, u.head? = some c → ¬(c.isDigit = true ∨ c = '.' ∨ c = '-')) ∧
      ((parseVal num = none ∧
          parse_perfdata_with_unit ['x'] ['1', '0', 's'] = .error .parseValueError) ∨
        (∃ v, parseVal num = some v ∧
          parse_perfdata_with_unit ['x'] ['1', '0', 's'] =
            (if u = [] then .ok (Perfdata.unit' ['x'] v)
            else if u = ['s'] then .ok (Perfdata.seconds ['x'] v)
            else if u = ['b'] then .ok (Perfdata.bytes ['x'] v)
            else if u = ['c'] then .ok (Perfdata.counter ['x'] v)
            else if u = ['%'] then .ok (Perfdata.percentage ['x'] v)
            else .error (.unknownUnit u)))) :=
  (C6_value_segment_grammar ['x'] ['1', '0', 's']).2 (by decide) (by decide)

/-- The token sequence the list-parser loop extracts, following the claim's
narration of the loop (the reference definition for C9): a token runs from the
current position up to the first space after the next `=`; when an `=` is found
but no space follows it, the whole remainder is the final token; when no `=` is
found at all, the loop stops. -/
def tokensOfListGo (remainder : Str) : List Str :=
  match h1 : findChar '=' remainder with
  | none => []
  | some equals_idx =>
    match h2 : findChar ' ' (remainder.drop equals_idx) with
    | some data_idx =>
      let left := remainder.take (equals_idx + data_idx)
      let right := remainder.drop (equals_idx + data_idx)
      (if left = [] then [] else [left]) ++ tokensOfListGo right
    | none => [remainder]
termination_by remainder.length
decreasing_by
  have he := findPred_spec remainder equals_idx h1
  have hs := findPred_spec (remainder.drop equals_idx) data_idx h2
  obtain ⟨helt, e1, he1, hpe⟩ := he
  obtain ⟨hslt, s1, hs1, hps⟩ := hs
  simp only [decide_eq_true_eq] at hpe hps
  subst hpe hps
  have hd1 : data_idx ≠ 0 := by
    intro h0
    subst h0
    rw [List.get?_drop, Nat.add_zero] at hs1
    rw [he1] at hs1
    cases hs1
  simp only [List.length_drop]
  omega

/-- Per-token results of a token sequence, in order; `none` when a token's
`try_from` panics. -/
def resultsOfTokens : List Str → Option (List (Except PerfdataParseError Perfdata))
  | [] => some []
  | t :: rest =>
    match tryFrom t, resultsOfTokens rest with
    | some r, some rs => some (r :: rs)
    | _, _ => none

theorem parseListGo_none (r : Str) (h : findChar '=' r = none) :
    parseListGo r = some [] ∧ tokensOfListGo r = [] := by
  rw [parseListGo, tokensOfListGo]
  constructor <;> split <;> simp_all

theorem parseListGo_last (r : Str) (equals_idx : Nat)
    (h1 : findChar '=' r = some equals_idx)
    (h2 : findChar ' ' (r.drop equals_idx) = none) :
    parseListGo r = (match tryFrom r with
      | none => none
      | some x => some [x]) ∧ tokensOfListGo r = [r] := by
  rw [parseListGo, tokensOfListGo]
  constructor <;> split <;> simp_all <;> split <;> simp_all

theorem parseListGo_step (r : Str) (equals_idx data_idx : Nat)
    (h1 : findChar '=' r = some equals_idx)
    (h2 : findChar ' ' (r.drop equals_idx) = some data_idx) :
    parseListGo r = (match parseListGo (r.drop (equals_idx + data_idx)) with
      | none => none
      | some rest =>
        if r.take (equals_idx + data_idx) = [] then some rest
        else match tryFrom (r.take (equals_idx + data_idx)) with
          | none => none
          | some x => some (x :: rest)) ∧
    tokensOfListGo r =
      (if r.take (equals_idx + data_idx) = [] then []
        else [r.take (equals_idx + data_idx)]) ++
        tokensOfListGo (r.drop (equals_idx + data_idx)) := by
  rw [parseListGo, tokensOfListGo]
  constructor <;> split <;> simp_all <;> split <;> simp_all

theorem parseListGo_eq_aux : ∀ (n : Nat) (r : Str), r.length ≤ n →
    parseListGo r = resultsOfTokens (tokensOfListGo r) := by
  intro n
  induction n with
  | zero =>
    intro r hr
    have hnil : r = [] := List.eq_nil_of_length_eq_zero (by omega)
    subst hnil
    obtain ⟨hp, ht⟩ := parseListGo_none [] rfl
    rw [hp, ht]
    rfl
  | succ n ih =>
    intro r hr
    cases h1 : findChar '=' r with
    | none =>
      obtain ⟨hp, ht⟩ := parseListGo_none r h1
      rw [hp, ht]
      rfl
    | some equals_idx =>
      cases h2 : findChar ' ' (r.drop equals_idx) with
      | none =>
        obtain ⟨hp, ht⟩ := parseListGo_last r equals_idx h1 h2
        rw [hp, ht]
        unfold resultsOfTokens
        cases tryFrom r <;> rfl
      | some data_idx =>
        obtain ⟨hp, ht⟩ := parseListGo_step r equals_idx data_idx h1 h2
        have hlen : (r.drop (equals_idx + data_idx)).length < r.length := by
          have he := findPred_spec r equals_idx h1
          have hs := findPred_spec (r.drop equals_idx) data_idx h2
          obtain ⟨helt, e1, he1, hpe⟩ := he
          obtain ⟨hslt, s1, hs1, hps⟩ := hs
          simp only [decide_eq_true_eq] at hpe hps
          subst hpe hps
          have hd1 : data_idx ≠ 0 := by
            intro h0
            subst h0
            rw [List.get?_drop, Nat.add_zero] at hs1
            rw [he1] at hs1
            cases hs1
          simp only [List.length_drop]
          omega
        have ihr := ih (r.drop (equals_idx + data_idx)) (by omega)
        rw [hp, ht, ihr]
        by_cases hl : r.take (equals_idx + data_idx) = []
        · simp only [if_pos hl, List.nil_append]
          cases hres : resultsOfTokens (tokensOfListGo (r.drop (equals_idx + data_idx))) <;>
            rfl
        · simp only [if_neg hl, List.cons_append, List.nil_append]
          simp only [resultsOfTokens]
          cases tryFrom (r.take (equals_idx + data_idx)) <;>
            cases hres : resultsOfTokens (tokensOfListGo (r.drop (equals_idx + data_idx))) <;>
              rfl

/-- C9 counterexample: the claim says a non-empty remainder with no further `=`
is passed to the single-token parser as the final token; in the code such a
remainder is silently discarded when the loop exits.  On `a=1 b` the code
returns one result, although the leftover ` b` would itself parse to a result
(`MissingEqualsSign`). -/
theorem C9_counterexample :
    parse_from_list ['a', '=', '1', ' ', 'b'] =
      some [.ok (Perfdata.unit' ['a'] (.finite 1))] ∧
    tryFrom [' ', 'b'] = some (.error .missingEqualsSign) := by
  constructor
  · show parseListGo (Str.trim ['a', '=', '1', ' ', 'b']) = _
    rw [show Str.trim ['a', '=', '1', ' ', 'b'] = ['a', '=', '1', ' ', 'b'] from by decide,
      (parseListGo_step ['a', '=', '1', ' ', 'b'] 1 2 (by decide) (by decide)).1,
      (parseListGo_none (List.drop (1 + 2) ['a', '=', '1', ' ', 'b']) (by decide)).1]
    have hv : parseVal ['1'] = some (.finite 1) := by
      simp [parseVal, stripSign, lowerEq, parseDecCore, parseExp, decimalValue, chNat,
        charDigit, digitsVal]
    simp [tryFrom, Str.splitOnce, parse_label, Str.trim, Str.startsWith, Str.endsWith,
      Str.splitChar, tryFromData, next_datapoint, parse_perfdata_with_unit, findPred,
      hv, applyWarn, applyCrit, applyMin, applyMax, Perfdata.unit', Perfdata.new]
  · decide

/-- C9 (amended): the list parser pushes each extracted token's parse result —
success or error — to the output in input order (`resultsOfTokens` over the
token sequence of the loop); a remainder holding a further `=` but no space
after it becomes the final token, while a trailing remainder with no `=` at all
is discarded.  The example `a=1 b=2 'c d'=3` yields exactly three ordered
successful records with labels `a`, `b`, `c d`. -/
theorem C9_list_parsing :
    (∀ s : Str, parse_from_list s = resultsOfTokens (tokensOfListGo (Str.trim s))) ∧
    parse_from_list ['a', '=', '1', ' ', 'b', '=', '2', ' ',
        '\'', 'c', ' ', 'd', '\'', '=', '3'] =
      some [.ok (Perfdata.unit' ['a'] (.finite 1)),
        .ok (Perfdata.unit' ['b'] (.finite 2)),
        .ok (Perfdata.unit' ['c', ' ', 'd'] (.finite 3))] := by
  constructor
  · intro s
    exact parseListGo_eq_aux (Str.trim s).length (Str.trim s) le_rfl
  · show parseListGo (Str.trim ['a', '=', '1', ' ', 'b', '=', '2', ' ',
        '\'', 'c', ' ', 'd', '\'', '=', '3']) = _
    rw [show Str.trim ['a', '=', '1', ' ', 'b', '=', '2', ' ',
        '\'', 'c', ' ', 'd', '\'', '=', '3'] = ['a', '=', '1', ' ', 'b', '=', '2', ' ',
        '\'', 'c', ' ', 'd', '\'', '=', '3'] from by decide,
      (parseListGo_step ['a', '=', '1', ' ', 'b', '=', '2', ' ',
        '\'', 'c', ' ', 'd', '\'', '=', '3'] 1 2 (by decide) (by decide)).1,
      (parseListGo_step (List.drop (1 + 2) ['a', '=', '1', ' ', 'b', '=', '2', ' ',
        '\'', 'c', ' ', 'd', '\'', '=', '3']) 2 2 (by decide) (by decide)).1,
      (parseListGo_last (List.drop (2 + 2) (List.drop (1 + 2) ['a', '=', '1', ' ',
        'b', '=', '2', ' ', '\'', 'c', ' ', 'd', '\'', '=', '3'])) 6
        (by decide) (by decide)).1]
    have hv1 : parseVal ['1'] = some (.finite 1) := by
      simp [parseVal, stripSign, lowerEq, parseDecCore, parseExp, decimalValue, chNat,
        charDigit, digitsVal]
    have hv2 : parseVal ['2'] = some (.finite 2) := by
      simp [parseVal, stripSign, lowerEq, parseDecCore, parseExp, decimalValue, chNat,
        charDigit, digitsVal]
    have hv3 : parseVal ['3'] = some (.finite 3) := by
      simp [parseVal, stripSign, lowerEq, parseDecCore, parseExp, decimalValue, chNat,
        charDigit, digitsVal]
    simp [tryFrom, Str.splitOnce, parse_label, Str.trim, Str.startsWith, Str.endsWith,
      Str.splitChar, tryFromData, next_datapoint, parse_perfdata_with_unit, findPred,
      hv1, hv2, hv3, applyWarn, applyCrit, applyMin, applyMax, Perfdata.unit',
      Perfdata.new]

theorem mem_takeWhile_pred {p : Char → Bool} :
    ∀ (l : Str) c, c ∈ l.takeWhile p → p c = true := by
  intro l
  induction l with
  | nil => intro c hc; simp at hc
  | cons x xs ih =>
    intro c hc
    rw [List.takeWhile_cons] at hc
    by_cases hp : p x
    · rw [if_pos hp] at hc
      rcases List.mem_cons.mp hc with hc | hc
      · subst hc; exact hp
      · exact ih c hc
    · rw [if_neg hp] at hc; simp at hc

theorem stripSign_decomp (s : Str) :
    s = (stripSign s).2 ∨ s = '+' :: (stripSign s).2 ∨ s = '-' :: (stripSign s).2 := by
  cases s with
  | nil => left; rfl
  | cons c r =>
    by_cases h1 : c = '+'
    · subst h1; right; left; simp [stripSign]
    · by_cases h2 : c = '-'
      · subst h2; right; right; simp [stripSign]
      · left; simp [stripSign, h1, h2]

theorem parseExp_chars {r : Str} {ex : Int} (h : parseExp r = some ex) :
    ∀ c ∈ r, c = 'e' ∨ c = 'E' ∨ c = '+' ∨ c = '-' ∨ c.isDigit = true := by
  intro c hc
  cases r with
  | nil => simp at hc
  | cons c0 rest =>
    simp only [parseExp] at h
    by_cases he : c0 = 'e' ∨ c0 = 'E'
    · rw [if_pos he] at h
      rcases List.mem_cons.mp hc with hc | hc
      · subst hc; tauto
      · by_cases hd : ((stripSign rest).2.takeWhile Char.isDigit).isEmpty ||
            !((stripSign rest).2.dropWhile Char.isDigit).isEmpty
        · rw [if_pos hd] at h; cases h
        · rw [if_neg hd] at h
          have hd2 : (((stripSign rest).2.takeWhile Char.isDigit).isEmpty ||
              !((stripSign rest).2.dropWhile Char.isDigit).isEmpty) = false := by
            exact Bool.eq_false_iff.mpr hd
          rw [Bool.or_eq_false_iff] at hd2
          obtain ⟨hA, hB⟩ := hd2
          have hBtrue : ((stripSign rest).2.dropWhile Char.isDigit).isEmpty = true := by
            cases hbb : ((stripSign rest).2.dropWhile Char.isDigit).isEmpty
            · rw [hbb] at hB; simp at hB
            · rfl
          have hBnil : (stripSign rest).2.dropWhile Char.isDigit = [] :=
            List.isEmpty_iff.mp hBtrue
          have hr2 : (stripSign rest).2 = (stripSign rest).2.takeWhile Char.isDigit := by
            conv_lhs => rw [← List.takeWhile_append_dropWhile (p := Char.isDigit)
              (l := (stripSign rest).2)]
            rw [hBnil, List.append_nil]
          have hdig : ∀ x ∈ (stripSign rest).2, x.isDigit = true := by
            intro x hx
            rw [hr2] at hx
            exact mem_takeWhile_pred _ x hx
          rcases stripSign_decomp rest with hre | hre | hre
          · rw [hre] at hc
            exact Or.inr (Or.inr (Or.inr (Or.inr (hdig c hc))))
          · rw [hre] at hc
            rcases List.mem_cons.mp hc with hc | hc
            · tauto
            · exact Or.inr (Or.inr (Or.inr (Or.inr (hdig c hc))))
          · rw [hre] at hc
            rcases List.mem_cons.mp hc with hc | hc
            · tauto
            · exact Or.inr (Or.inr (Or.inr (Or.inr (hdig c hc))))
    · rw [if_neg he] at h; cases h

theorem parseDecCore_chars {s : Str} {q : ℚ} (h : parseDecCore s = some q) :
    ∀ c ∈ s, c.isDigit = true ∨ c = '.' ∨ c = 'e' ∨ c = 'E' ∨ c = '+' ∨ c = '-' := by
  intro c hc
  have hsplit : s.takeWhile Char.isDigit ++ s.dropWhile Char.isDigit = s :=
    List.takeWhile_append_dropWhile _ _
  rw [← hsplit] at hc
  rcases List.mem_append.mp hc with hc | hc
  · exact Or.inl (mem_takeWhile_pred _ c hc)
  · simp only [parseDecCore] at h
    cases hr1 : s.dropWhile Char.isDigit with
    | nil => rw [hr1] at hc; simp at hc
    | cons c1 r2 =>
      rw [hr1] at h hc
      simp only [] at h
      by_cases hdot : c1 = '.'
      · rw [if_pos hdot] at h
        subst hdot
        rcases List.mem_cons.mp hc with hc | hc
        · subst hc; tauto
        · have hsplit2 : r2.takeWhile Char.isDigit ++ r2.dropWhile Char.isDigit = r2 :=
            List.takeWhile_append_dropWhile _ _
          rw [← hsplit2] at hc
          by_cases hg : (s.takeWhile Char.isDigit).isEmpty && (r2.takeWhile Char.isDigit).isEmpty
          · rw [if_pos hg] at h; cases h
          · rw [if_neg hg] at h
            obtain ⟨ex, hex, -⟩ := Option.map_eq_some'.mp h
            rcases List.mem_append.mp hc with hc | hc
            · exact Or.inl (mem_takeWhile_pred _ c hc)
            · have := parseExp_chars hex c hc
              tauto
      · rw [if_neg hdot] at h
        by_cases hip : (s.takeWhile Char.isDigit).isEmpty
        · rw [if_pos hip] at h; cases h
        · rw [if_neg hip] at h
          obtain ⟨ex, hex, -⟩ := Option.map_eq_some'.mp h
          have := parseExp_chars hex c hc
          tauto

theorem parseDecCore_head {s : Str} {q : ℚ} (h : parseDecCore s = some q) :
    ∃ c rest, s = c :: rest ∧ (c.isDigit = true ∨ c = '.') := by
  cases s with
  | nil => exact absurd h (by simp [parseDecCore, parseExp])
  | cons c rest =>
    refine ⟨c, rest, rfl, ?_⟩
    by_cases hd : c.isDigit
    · exact Or.inl hd
    · right
      have hip : (c :: rest).takeWhile Char.isDigit = [] := by
        rw [List.takeWhile_cons, if_neg hd]
      have hdr : (c :: rest).dropWhile Char.isDigit = c :: rest := by
        rw [List.dropWhile_cons, if_neg hd]
      simp only [parseDecCore, hip, hdr] at h
      by_cases hdot : c = '.'
      · exact hdot
      · rw [if_neg hdot] at h
        simp at h

theorem parseVal_finite_facts {S : Str} {q : ℚ} (h : parseVal S = some (.finite q)) :
    (∀ c ∈ S, c.isDigit = true ∨ c = '.' ∨ c = 'e' ∨ c = 'E' ∨ c = '+' ∨ c = '-') ∧
    (∃ c rest, S = c :: rest ∧
      (c.isDigit = true ∨ c = '.' ∨ c = '+' ∨ c = '-')) := by
  simp only [parseVal] at h
  by_cases hinf : lowerEq (stripSign S).2 ['i', 'n', 'f'] ||
      lowerEq (stripSign S).2 ['i', 'n', 'f', 'i', 'n', 'i', 't', 'y']
  · rw [if_pos hinf] at h
    cases hb : (stripSign S).1 <;> rw [hb] at h <;> simp at h
  · rw [if_neg hinf] at h
    by_cases hnan : lowerEq (stripSign S).2 ['n', 'a', 'n']
    · rw [if_pos hnan] at h
      simp at h
    · rw [if_neg hnan] at h
      obtain ⟨q0, hq0, -⟩ := Option.map_eq_some'.mp h
      obtain ⟨c1, rest1, hcr, hcd⟩ := parseDecCore_head hq0
      rcases stripSign_decomp S with hs | hs | hs
      · constructor
        · intro c hc
          rw [hs] at hc
          exact parseDecCore_chars hq0 c hc
        · exact ⟨c1, rest1, by rw [hs, hcr], by tauto⟩
      · constructor
        · intro c hc
          rw [hs] at hc
          rcases List.mem_cons.mp hc with hc | hc
          · subst hc; tauto
          · exact parseDecCore_chars hq0 c hc
        · exact ⟨'+', (stripSign S).2, hs, by tauto⟩
      · constructor
        · intro c hc
          rw [hs] at hc
          rcases List.mem_cons.mp hc with hc | hc
          · subst hc; tauto
          · exact parseDecCore_chars hq0 c hc
        · exact ⟨'-', (stripSign S).2, hs, by tauto⟩

theorem splitOnce_append {c : Char} : ∀ (xs ys : Str), c ∉ xs →
    Str.splitOnce c (xs ++ c :: ys) = some (xs, ys) := by
  intro xs
  induction xs with
  | nil => intro ys _; simp [Str.splitOnce]
  | cons x xs ih =>
    intro ys h
    have hx : x ≠ c := fun he => h (by simp [he])
    rw [List.cons_append]
    simp only [Str.splitOnce, if_neg hx, ih ys (fun hm => h (by simp [hm]))]

/-- C10: the literal `~` is accepted in the END position too: for every finite
numeric text `S`, both `S:~` and `~:S` parse, the `~` means negative infinity,
and canonicalization swaps the reversed pair, so the two strings yield the same
outside-polarity range `[-∞, value of S]`. -/
theorem C10_tilde_end (S : Str) (q : ℚ) (h : parseVal S = some (.finite q)) :
    ThresholdRange.from_str (S ++ [':', '~']) =
      .ok ⟨false, .negInf, .finite q⟩ ∧
    ThresholdRange.from_str ('~' :: ':' :: S) =
      .ok ⟨false, .negInf, .finite q⟩ := by
  obtain ⟨hchars, c0, rest0, hS, hc0⟩ := parseVal_finite_facts h
  have hne : S ≠ [] := by rw [hS]; simp
  have hcolon : ':' ∉ S := by
    intro hmem
    rcases hchars ':' hmem with h1 | h1 | h1 | h1 | h1 | h1 <;>
      exact absurd h1 (by decide)
  have hc0at : c0 ≠ '@' := by
    rcases hc0 with h1 | h1 | h1 | h1
    · exact digit_ne h1 (by decide)
    all_goals (subst h1; decide)
  have hc0tilde : c0 ≠ '~' := by
    rcases hc0 with h1 | h1 | h1 | h1
    · exact digit_ne h1 (by decide)
    all_goals (subst h1; decide)
  have hnotilde : S ≠ ['~'] := by
    rw [hS]
    intro hcontra
    cases hcontra
    exact hc0tilde rfl
  have hpr : parse_range S (Val.finite 0) = .ok (.finite q) ∧
      parse_range S .posInf = .ok (.finite q) := by
    constructor <;> (unfold parse_range; rw [if_neg hne, if_neg hnotilde]; simp [h])
  constructor
  · unfold ThresholdRange.from_str
    rw [if_neg (by simp [hS] : ¬ S ++ [':', '~'] = [])]
    have hstart : Str.startsWith '@' (S ++ [':', '~']) = false := by
      rw [hS]
      simp [Str.startsWith, hc0at]
    rw [hstart]
    simp only [Bool.false_eq_true, if_false]
    rw [splitOnce_append S ['~'] hcolon]
    simp only [hpr.1]
    have htl : parse_range ['~'] .posInf = .ok .negInf := by decide
    rw [htl]
    simp [ThresholdRange.outside, ThresholdRange.new, Val.vlt]
  · unfold ThresholdRange.from_str
    rw [if_neg (by simp : ¬ ('~' :: ':' :: S) = [])]
    have hstart : Str.startsWith '@' ('~' :: ':' :: S) = false := by
      simp [Str.startsWith]
    rw [hstart]
    simp only [Bool.false_eq_true, if_false]
    have hso : Str.splitOnce ':' ('~' :: ':' :: S) = some (['~'], S) := by
      simp [Str.splitOnce]
    rw [hso]
    have htl : parse_range ['~'] (Val.finite 0) = .ok .negInf := by decide
    simp only [htl, hpr.2]
    simp [ThresholdRange.outside, ThresholdRange.new, Val.vlt]

theorem C10_witness :
    parseVal ['1', '0'] = some (.finite 10) ∧
    ThresholdRange.from_str ['1', '0', ':', '~'] =
      .ok ⟨false, .negInf, .finite 10⟩ ∧
    ThresholdRange.from_str ['~', ':', '1', '0'] =
      .ok ⟨false, .negInf, .finite 10⟩ := by
  have hv : parseVal ['1', '0'] = some (.finite 10) := by
    simp [parseVal, stripSign, lowerEq, parseDecCore, parseExp, decimalValue, chNat,
      charDigit, digitsVal]
  have h := C10_tilde_end ['1', '0'] 10 hv
  exact ⟨hv, h.1, h.2⟩

/-! ## Format-side character lemmas, towards the round trip (C1) -/

theorem fmtQnum_chars (n d e : Nat) :
    ∀ c ∈ fmtQnum n d e, c.isDigit = true ∨ c = '.' := by
  intro c hc
  unfold fmtQnum at hc
  by_cases he : e = 0
  · rw [if_pos he] at hc
    exact Or.inl (renderNat_digits _ c hc)
  · rw [if_neg he] at hc
    rcases List.mem_append.mp hc with hc | hc
    · exact Or.inl (renderNat_digits _ c hc)
    · rcases List.mem_cons.mp hc with hc | hc
      · exact Or.inr hc
      · rcases List.mem_append.mp hc with hc | hc
        · rw [List.eq_of_mem_replicate hc]
          exact Or.inl (by decide)
        · exact Or.inl (renderNat_digits _ c hc)

theorem fmtQ_chars (q : ℚ) : ∀ c ∈ fmtQ q, c.isDigit = true ∨ c = '.' ∨ c = '-' := by
  intro c hc
  unfold fmtQ at hc
  cases hde : decExp q.den with
  | none =>
    rw [hde] at hc
    simp at hc
    subst hc
    exact Or.inl (by decide)
  | some e =>
    rw [hde] at hc
    by_cases hq : q < 0
    · rw [if_pos hq] at hc
      rcases List.mem_append.mp hc with hc | hc
      · simp at hc
        subst hc
        tauto
      · rcases fmtQnum_chars _ _ _ c hc with h | h <;> tauto
    · rw [if_neg hq] at hc
      simp only [List.nil_append] at hc
      rcases fmtQnum_chars _ _ _ c hc with h | h <;> tauto

theorem fmtQ_head (q : ℚ) :
    ∃ c rest, fmtQ q = c :: rest ∧ (c.isDigit = true ∨ c = '-') := by
  unfold fmtQ
  cases hde : decExp q.den with
  | none => exact ⟨'0', [], rfl, Or.inl (by decide)⟩
  | some e =>
    by_cases hq : q < 0
    · rw [if_pos hq]
      exact ⟨'-', fmtQnum q.num.natAbs q.den e, rfl, Or.inr rfl⟩
    · rw [if_neg hq]
      obtain ⟨c, rest, hcr, hcd⟩ := fmtQnum_head q.num.natAbs q.den e
      exact ⟨c, rest, by simp [hcr], Or.inl hcd⟩

theorem fmtQ_head_nonneg (q : ℚ) (hq : ¬q < 0) :
    ∃ c rest, fmtQ q = c :: rest ∧ c.isDigit = true := by
  unfold fmtQ
  cases hde : decExp q.den with
  | none => exact ⟨'0', [], rfl, by decide⟩
  | some e =>
    rw [if_neg hq]
    obtain ⟨c, rest, hcr, hcd⟩ := fmtQnum_head q.num.natAbs q.den e
    exact ⟨c, rest, by simp [hcr], hcd⟩

theorem fmtVal_head (v : Val) :
    ∃ c rest, fmtVal v = c :: rest ∧ (c.isDigit = true ∨ c = '-' ∨ c = 'i' ∨ c = 'N') := by
  cases v with
  | nan => exact ⟨'N', ['a', 'N'], rfl, by tauto⟩
  | negInf => exact ⟨'-', ['i', 'n', 'f'], rfl, by tauto⟩
  | posInf => exact ⟨'i', ['n', 'f'], rfl, by tauto⟩
  | finite q =>
    obtain ⟨c, rest, hcr, hcd⟩ := fmtQ_head q
    exact ⟨c, rest, hcr, by tauto⟩

theorem fmtVal_ne_nil (v : Val) : fmtVal v ≠ [] := by
  obtain ⟨c, rest, hcr, -⟩ := fmtVal_head v
  rw [hcr]
  simp

theorem fmtVal_ne_tilde (v : Val) : fmtVal v ≠ ['~'] := by
  obtain ⟨c, rest, hcr, hcd⟩ := fmtVal_head v
  rw [hcr]
  intro hcontra
  cases hcontra
  rcases hcd with h | h | h | h
  · exact absurd h (by decide)
  all_goals cases h

theorem fmtVal_chars (v : Val) :
    ∀ c ∈ fmtVal v, c.isDigit = true ∨ c = '.' ∨ c = '-' ∨ c = 'i' ∨ c = 'n' ∨
      c = 'f' ∨ c = 'N' ∨ c = 'a' := by
  intro c hc
  cases v with
  | nan => simp [fmtVal] at hc; tauto
  | negInf => simp [fmtVal] at hc; tauto
  | posInf => simp [fmtVal] at hc; tauto
  | finite q => rcases fmtQ_chars q c hc with h | h | h <;> tauto

/-- The set of well-formed values a parsed/constructed threshold bound can be:
no NaN, and finite parts decimal. -/
def okRange (r : ThresholdRange) : Prop :=
  r.start.IsDecimal ∧ r.end_.IsDecimal ∧ Val.vle r.start r.end_ = true

theorem parse_range_fmtVal (v : Val) (h : v.IsDecimal) (d : Val) :
    parse_range (fmtVal v) d = .ok v := by
  unfold parse_range
  rw [if_neg (fmtVal_ne_nil v), if_neg (fmtVal_ne_tilde v)]
  simp [parseVal_fmtVal v h]

theorem not_mem_fmtVal_of (v : Val) (c : Char) (hd : c.isDigit = false)
    (h1 : c ≠ '.') (h2 : c ≠ '-') (h3 : c ≠ 'i') (h4 : c ≠ 'n') (h5 : c ≠ 'f')
    (h6 : c ≠ 'N') (h7 : c ≠ 'a') : c ∉ fmtVal v := by
  intro hmem
  rcases fmtVal_chars v c hmem with h | h | h | h | h | h | h | h <;> simp_all

theorem splitOnce_not_mem {c : Char} :
    ∀ l : Str, c ∉ l → Str.splitOnce c l = none := by
  intro l
  induction l with
  | nil => intro _; rfl
  | cons x xs ih =>
    intro h
    have hx : x ≠ c := fun he => h (by simp [he])
    simp only [Str.splitOnce, if_neg hx, ih (fun hm => h (by simp [hm]))]

theorem new_no_swap {i : Bool} {s e : Val} (h : Val.vlt e s = false) :
    ThresholdRange.new i s e = ⟨i, s, e⟩ := by
  unfold ThresholdRange.new
  rw [h]
  simp

/-- `from_str` on a polarity marker followed by a body that does not itself
start with `@`. -/
theorem from_str_strip (ins : Bool) (body : Str) (hne : body ≠ [])
    (hb : Str.startsWith '@' body = false) :
    ThresholdRange.from_str ((if ins then ['@'] else []) ++ body) =
      (match Str.splitOnce ':' body with
        | some (st, en) =>
          match parse_range st (.finite 0) with
          | .error e => .error e
          | .ok ps =>
            match parse_range en .posInf with
            | .error e => .error e
            | .ok pe =>
              if ins then .ok (ThresholdRange.inside ps pe)
              else .ok (ThresholdRange.outside ps pe)
        | none =>
          match parse_range body .posInf with
          | .error e => .error e
          | .ok pe =>
            if ins then .ok (ThresholdRange.inside (.finite 0) pe)
            else .ok (ThresholdRange.outside (.finite 0) pe)) := by
  cases ins with
  | false =>
    simp only [if_false, Bool.false_eq_true, List.nil_append]
    unfold ThresholdRange.from_str
    rw [if_neg hne, hb]
    simp only [Bool.false_eq_true, if_false]
  | true =>
    simp only [if_true, List.cons_append, List.nil_append]
    unfold ThresholdRange.from_str
    rw [if_neg (by simp : ¬ ('@' :: body) = [])]
    have hs : Str.startsWith '@' ('@' :: body) = true := by
      simp [Str.startsWith]
    rw [hs]
    simp only [if_true, List.drop_succ_cons, List.drop_zero]

theorem fmtVal_head_ne_at (v : Val) :
    ∀ c rest, fmtVal v = c :: rest → c ≠ '@' := by
  intro c rest hcr
  obtain ⟨c2, rest2, hcr2, hcd⟩ := fmtVal_head v
  rw [hcr] at hcr2
  cases hcr2
  rcases hcd with h | h | h | h
  · exact digit_ne h (by decide)
  all_goals (subst h; decide)

theorem startsWith_at_fmtVal_append (v : Val) (tail : Str) :
    Str.startsWith '@' (fmtVal v ++ tail) = false := by
  obtain ⟨c, rest, hcr, hcd⟩ := fmtVal_head v
  have hne := fmtVal_head_ne_at v c rest hcr
  rw [hcr]
  simp [Str.startsWith, hne]

theorem startsWith_at_fmtVal (v : Val) :
    Str.startsWith '@' (fmtVal v) = false := by
  have := startsWith_at_fmtVal_append v []
  simpa using this

theorem colon_not_mem_fmtVal (v : Val) : ':' ∉ fmtVal v :=
  not_mem_fmtVal_of v ':' (by decide) (by decide) (by decide) (by decide) (by decide)
    (by decide) (by decide) (by decide)

/-- Parsing a formatted threshold range gives the range back (the round trip
for each of the five display shapes). -/
theorem from_str_fmtRange (r : ThresholdRange) (h : okRange r) :
    ThresholdRange.from_str (fmtThresholdRange r) = .ok r := by
  obtain ⟨hs, he, hle⟩ := h
  obtain ⟨ins, st, en⟩ := r
  simp only [okRange] at hs he hle
  unfold fmtThresholdRange
  dsimp only
  by_cases hA : st = .negInf ∧ en = .posInf
  · rw [if_pos hA]
    obtain ⟨hA1, hA2⟩ := hA
    subst hA1
    subst hA2
    rw [from_str_strip ins ['~', ':'] (by simp) (by decide)]
    cases ins <;> decide
  · rw [if_neg hA]
    by_cases hB : st = .finite 0 ∧ en = .posInf
    · rw [if_pos hB]
      obtain ⟨hB1, hB2⟩ := hB
      subst hB1
      subst hB2
      rw [from_str_strip ins ['0', ':'] (by simp) (by decide)]
      have hv0 : parse_range ['0'] (.finite 0) = .ok (.finite 0) := by
        unfold parse_range
        rw [if_neg (by decide), if_neg (by decide)]
        have hpv : parseVal ['0'] = some (.finite 0) := by
          simp [parseVal, stripSign, lowerEq, parseDecCore, parseExp, decimalValue,
            chNat, charDigit, digitsVal]
        simp [hpv]
      have hso : Str.splitOnce ':' ['0', ':'] = some (['0'], []) := by decide
      simp only [hso, hv0]
      have hpe : parse_range [] Val.posInf = .ok .posInf := rfl
      simp only [hpe]
      cases ins <;>
        simp [ThresholdRange.inside, ThresholdRange.outside, ThresholdRange.new, Val.vlt]
    · rw [if_neg hB]
      by_cases hC : st = .finite 0
      · rw [if_pos hC]
        subst hC
        rw [from_str_strip ins (fmtVal en) (fmtVal_ne_nil en) (startsWith_at_fmtVal en)]
        rw [splitOnce_not_mem (fmtVal en) (colon_not_mem_fmtVal en)]
        simp only [parse_range_fmtVal en he]
        have hswap : Val.vlt en (Val.finite 0) = false := Val.vlt_eq_false_of_vle hle
        cases ins <;>
          simp [ThresholdRange.inside, ThresholdRange.outside, new_no_swap hswap]
      · rw [if_neg hC]
        by_cases hD : st = .negInf
        · rw [if_pos hD]
          subst hD
          rw [from_str_strip ins ('~' :: ':' :: fmtVal en) (by simp)
            (by simp [Str.startsWith])]
          have hso : Str.splitOnce ':' ('~' :: ':' :: fmtVal en) =
              some (['~'], fmtVal en) := by
            simp [Str.splitOnce]
          simp only [hso]
          have h1 : parse_range ['~'] (.finite 0) = .ok .negInf := by decide
          simp only [h1, parse_range_fmtVal en he]
          have hswap : Val.vlt en Val.negInf = false := Val.vlt_eq_false_of_vle hle
          cases ins <;>
            simp [ThresholdRange.inside, ThresholdRange.outside, new_no_swap hswap]
        · rw [if_neg hD]
          rw [List.append_assoc]
          rw [from_str_strip ins (fmtVal st ++ ':' :: fmtVal en)
            (by simp [fmtVal_ne_nil st]) (startsWith_at_fmtVal_append st _)]
          rw [splitOnce_append (fmtVal st) (fmtVal en) (colon_not_mem_fmtVal st)]
          simp only [parse_range_fmtVal st hs, parse_range_fmtVal en he]
          have hswap : Val.vlt en st = false := Val.vlt_eq_false_of_vle hle
          cases ins <;>
            simp [ThresholdRange.inside, ThresholdRange.outside, new_no_swap hswap]

theorem trim_noop (s : Str) (h1 : ∀ c, s.head? = some c → c.isWhitespace = false)
    (h2 : ∀ c, s.getLast? = some c → c.isWhitespace = false) : Str.trim s = s := by
  unfold Str.trim
  have hd : s.dropWhile Char.isWhitespace = s := by
    cases s with
    | nil => rfl
    | cons c rest => rw [List.dropWhile_cons, if_neg (by simp [h1 c rfl])]
  rw [hd]
  have hrev : s.reverse.dropWhile Char.isWhitespace = s.reverse := by
    cases hsr : s.reverse with
    | nil => rfl
    | cons c rest =>
      have hlast : s.getLast? = some c := by
        rw [List.getLast?_eq_head?_reverse, hsr]
        rfl
      rw [List.dropWhile_cons, if_neg (by simp [h2 c hlast])]
  rw [hrev, List.reverse_reverse]

theorem parse_label_quoted (l : Str) (hne : l ≠ []) (hq : '\'' ∉ l) :
    parse_label ('\'' :: l ++ ['\'']) = some (.ok l) := by
  unfold parse_label
  have hshape : ('\'' :: l ++ ['\'']) = ('\'' :: l) ++ ['\''] := by
    simp
  have htrim : Str.trim ('\'' :: l ++ ['\'']) = '\'' :: l ++ ['\''] := by
    apply trim_noop
    · intro c hc
      simp only [List.cons_append, List.head?_cons, Option.some.injEq] at hc
      subst hc
      decide
    · intro c hc
      rw [hshape, List.getLast?_concat] at hc
      cases hc
      decide
  rw [htrim]
  have hsw : Str.startsWith '\'' ('\'' :: l ++ ['\'']) = true := by
    simp [Str.startsWith]
  have hew : Str.endsWith '\'' ('\'' :: l ++ ['\'']) = true := by
    rw [Str.endsWith, hshape, List.getLast?_concat]
    decide
  have hdl : (('\'' :: l ++ ['\'']).drop 1).dropLast = l := by
    simp only [List.cons_append, List.drop_succ_cons, List.drop_zero]
    rw [List.dropLast_concat]
  simp only [hsw, hew, Bool.and_self, if_true,
    if_pos (show ('\'' :: l ++ ['\'']).length ≥ 2 by simp), hdl]
  rw [if_neg hq, if_neg hne]

theorem splitChar_append {c : Char} : ∀ xs ys, c ∉ xs →
    Str.splitChar c (xs ++ c :: ys) = xs :: Str.splitChar c ys := by
  intro xs
  induction xs with
  | nil =>
    intro ys _
    simp [Str.splitChar]
  | cons x xs ih =>
    intro ys h
    have hx : x ≠ c := fun he => h (by simp [he])
    rw [List.cons_append]
    simp only [Str.splitChar, if_neg hx, ih ys (fun hm => h (by simp [hm]))]

theorem findPred_eq_none {p : Char → Bool} :
    ∀ l : Str, (∀ c ∈ l, p c = false) → findPred p l = none := by
  intro l
  induction l with
  | nil => intro _; rfl
  | cons x xs ih =>
    intro h
    have hx : p x = false := h x (by simp)
    simp only [findPred, hx, Bool.false_eq_true, if_false,
      ih (fun c hc => h c (by simp [hc])), Option.map_none']

theorem findPred_append_first {p : Char → Bool} :
    ∀ (xs : Str) (y : Char) (ys : Str), (∀ c ∈ xs, p c = false) → p y = true →
      findPred p (xs ++ y :: ys) = some xs.length := by
  intro xs
  induction xs with
  | nil =>
    intro y ys _ hy
    simp [findPred, hy]
  | cons x xs ih =>
    intro y ys hx hy
    have hpx : p x = false := hx x (by simp)
    rw [List.cons_append]
    simp only [findPred, hpx, Bool.false_eq_true, if_false,
      ih y ys (fun c hc => hx c (by simp [hc])) hy, Option.map_some']
    simp [List.length_cons]

/-- The payload a unit-tagged value can carry after construction from a finite
double (what the round trip requires of the value position). -/
def okUnit : PerfUnit → Prop
  | .None v => v.IsFiniteDecimal
  | .Percentage v => v.IsFiniteDecimal
  | .Seconds v => v.IsFiniteDecimal
  | .Bytes v => v.IsFiniteDecimal
  | .Counter v => v.IsFiniteDecimal
  | .Undetermined => True

theorem ppwu_core (label : Str) (q : ℚ) (hq : q.den ∣ 10 ^ q.den) (suffix : Str)
    (hneU : fmtQ q ++ suffix ≠ ['U']) (hneu : fmtQ q ++ suffix ≠ ['u'])
    (hsuf : ∀ c, suffix.head? = some c → (!(c = '.' || c = '-' || c.isDigit)) = true) :
    parse_perfdata_with_unit label (fmtQ q ++ suffix) =
      (if suffix = [] then .ok (Perfdata.unit' label (.finite q))
      else if suffix = ['s'] then .ok (Perfdata.seconds label (.finite q))
      else if suffix = ['b'] then .ok (Perfdata.bytes label (.finite q))
      else if suffix = ['c'] then .ok (Perfdata.counter label (.finite q))
      else if suffix = ['%'] then .ok (Perfdata.percentage label (.finite q))
      else .error (.unknownUnit suffix)) := by
  unfold parse_perfdata_with_unit
  have hcond : (fmtQ q ++ suffix = ['U'] || fmtQ q ++ suffix = ['u']) = false := by
    simp [hneU, hneu]
  rw [hcond]
  simp only [Bool.false_eq_true, if_false]
  have hqchars : ∀ c ∈ fmtQ q,
      (fun c => !(c = '.' || c = '-' || c.isDigit)) c = false := by
    intro c hc
    rcases fmtQ_chars q c hc with h | h | h <;> simp [h]
  cases suffix with
  | nil =>
    rw [List.append_nil]
    rw [findPred_eq_none (fmtQ q) hqchars]
    simp only [parseVal_fmtQ q hq]
  | cons c0 rest =>
    have hp0 : (fun c => !(c = '.' || c = '-' || c.isDigit)) c0 = true :=
      hsuf c0 rfl
    rw [findPred_append_first (fmtQ q) c0 rest hqchars hp0]
    simp only [List.take_left, List.drop_left]
    simp only [parseVal_fmtQ q hq]

theorem single_char_ne_append (q : ℚ) (c0 d : Char) (rest : Str) :
    fmtQ q ++ c0 :: rest ≠ [d] := by
  obtain ⟨c, r2, hcr, -⟩ := fmtQ_head q
  rw [hcr]
  intro hcontra
  have := congrArg List.length hcontra
  simp [List.length_append] at this

theorem fmtQ_ne_single (q : ℚ) (d : Char) (hd : d.isDigit = false) (hm : d ≠ '-') :
    fmtQ q ≠ [d] := by
  obtain ⟨c, r2, hcr, hcd⟩ := fmtQ_head q
  rw [hcr]
  intro hcontra
  cases hcontra
  rcases hcd with h | h
  · rw [h] at hd
    cases hd
  · exact hm h

/-- Parsing the formatted value-with-unit gives the unit-tagged value back. -/
theorem ppwu_fmtUnit (label : Str) (u : PerfUnit) (h : okUnit u) :
    parse_perfdata_with_unit label (fmtPerfUnit u) = .ok (Perfdata.new label u) := by
  cases u with
  | Undetermined => rfl
  | None v =>
    cases v with
    | finite q =>
      have hq : q.den ∣ 10 ^ q.den := h
      have hU : fmtQ q ++ [] ≠ ['U'] := by
        rw [List.append_nil]
        exact fmtQ_ne_single q 'U' (by decide) (by decide)
      have hu : fmtQ q ++ [] ≠ ['u'] := by
        rw [List.append_nil]
        exact fmtQ_ne_single q 'u' (by decide) (by decide)
      have hcalc := ppwu_core label q hq [] hU hu (by intro c hc; cases hc)
      rw [List.append_nil] at hcalc
      rw [show fmtPerfUnit (.None (.finite q)) = fmtQ q from rfl, hcalc]
      simp [Perfdata.unit', Perfdata.new]
    | nan => exact absurd h (by simp [okUnit, Val.IsFiniteDecimal])
    | negInf => exact absurd h (by simp [okUnit, Val.IsFiniteDecimal])
    | posInf => exact absurd h (by simp [okUnit, Val.IsFiniteDecimal])
  | Seconds v =>
    cases v with
    | finite q =>
      have hq : q.den ∣ 10 ^ q.den := h
      have hcalc := ppwu_core label q hq ['s'] (single_char_ne_append q 's' 'U' [])
        (single_char_ne_append q 's' 'u' []) (by intro c hc; cases hc; decide)
      rw [show fmtPerfUnit (.Seconds (.finite q)) = fmtQ q ++ ['s'] from rfl, hcalc]
      simp [Perfdata.seconds, Perfdata.new]
    | nan => exact absurd h (by simp [okUnit, Val.IsFiniteDecimal])
    | negInf => exact absurd h (by simp [okUnit, Val.IsFiniteDecimal])
    | posInf => exact absurd h (by simp [okUnit, Val.IsFiniteDecimal])
  | Bytes v =>
    cases v with
    | finite q =>
      have hq : q.den ∣ 10 ^ q.den := h
      have hcalc := ppwu_core label q hq ['b'] (single_char_ne_append q 'b' 'U' [])
        (single_char_ne_append q 'b' 'u' []) (by intro c hc; cases hc; decide)
      rw [show fmtPerfUnit (.Bytes (.finite q)) = fmtQ q ++ ['b'] from rfl, hcalc]
      simp [Perfdata.bytes, Perfdata.new]
    | nan => exact absurd h (by simp [okUnit, Val.IsFiniteDecimal])
    | negInf => exact absurd h (by simp [okUnit, Val.IsFiniteDecimal])
    | posInf => exact absurd h (by simp [okUnit, Val.IsFiniteDecimal])
  | Counter v =>
    cases v with
    | finite q =>
      have hq : q.den ∣ 10 ^ q.den := h
      have hcalc := ppwu_core label q hq ['c'] (single_char_ne_append q 'c' 'U' [])
        (single_char_ne_append q 'c' 'u' []) (by intro c hc; cases hc; decide)
      rw [show fmtPerfUnit (.Counter (.finite q)) = fmtQ q ++ ['c'] from rfl, hcalc]
      simp [Perfdata.counter, Perfdata.new]
    | nan => exact absurd h (by simp [okUnit, Val.IsFiniteDecimal])
    | negInf => exact absurd h (by simp [okUnit, Val.IsFiniteDecimal])
    | posInf => exact absurd h (by simp [okUnit, Val.IsFiniteDecimal])
  | Percentage v =>
    cases v with
    | finite q =>
      have hq : q.den ∣ 10 ^ q.den := h
      have hcalc := ppwu_core label q hq ['%'] (single_char_ne_append q '%' 'U' [])
        (single_char_ne_append q '%' 'u' []) (by intro c hc; cases hc; decide)
      rw [show fmtPerfUnit (.Percentage (.finite q)) = fmtQ q ++ ['%'] from rfl, hcalc]
      simp [Perfdata.percentage, Perfdata.new]
    | nan => exact absurd h (by simp [okUnit, Val.IsFiniteDecimal])
    | negInf => exact absurd h (by simp [okUnit, Val.IsFiniteDecimal])
    | posInf => exact absurd h (by simp [okUnit, Val.IsFiniteDecimal])

theorem semi_not_mem_fmtVal (v : Val) : ';' ∉ fmtVal v :=
  not_mem_fmtVal_of v ';' (by decide) (by decide) (by decide) (by decide) (by decide)
    (by decide) (by decide) (by decide)

theorem semi_not_mem_fmtRange (r : ThresholdRange) : ';' ∉ fmtThresholdRange r := by
  have hv1 := semi_not_mem_fmtVal r.end_
  have hv2 := semi_not_mem_fmtVal r.start
  intro hmem
  simp only [fmtThresholdRange] at hmem
  split_ifs at hmem <;> simp at hmem <;>
    first
      | exact hv1 hmem
      | exact hv2 hmem
      | (rcases hmem with h | h
         · exact hv2 h
         · exact hv1 h)

theorem fmtRange_ne_nil (r : ThresholdRange) : fmtThresholdRange r ≠ [] := by
  simp only [fmtThresholdRange]
  split_ifs <;> simp [fmtVal_ne_nil]

theorem fmtPerfUnit_ne_nil (u : PerfUnit) : fmtPerfUnit u ≠ [] := by
  cases u with
  | Undetermined => simp [fmtPerfUnit]
  | None v => exact fmtVal_ne_nil v
  | Percentage v => simp [fmtPerfUnit]
  | Seconds v => simp [fmtPerfUnit]
  | Bytes v => simp [fmtPerfUnit]
  | Counter v => simp [fmtPerfUnit]

theorem semi_not_mem_fmtPerfUnit (u : PerfUnit) : ';' ∉ fmtPerfUnit u := by
  intro hmem
  cases u <;> simp only [fmtPerfUnit] at hmem
  case Undetermined => simp at hmem
  case None v => exact semi_not_mem_fmtVal v hmem
  all_goals
    (rename_i v
     rcases List.mem_append.mp hmem with h | h
     · exact semi_not_mem_fmtVal v h
     · simp at h)

/-- The text of an optional warn/crit field inside the record display. -/
def optRangeStr : Option ThresholdRange → Str
  | none => []
  | some r => fmtThresholdRange r

/-- The text of an optional min/max field inside the record display. -/
def optValStr : Option Val → Str
  | none => []
  | some v => fmtVal v

/-- A label that survives the display/parse cycle: non-empty, no single quote,
no equals sign. -/
def goodLabel (l : Str) : Prop := l ≠ [] ∧ '\'' ∉ l ∧ '=' ∉ l

/-- Well-formedness of an optional threshold field. -/
def okOptRange : Option ThresholdRange → Prop
  | none => True
  | some r => okRange r

/-- Well-formedness of an optional min/max field. -/
def okOptVal : Option Val → Prop
  | none => True
  | some v => v.IsDecimal

theorem warn_if (pd : Perfdata) (o : Option ThresholdRange) (ho : okOptRange o) :
    applyWarn pd (if optRangeStr o = [] then none else some (optRangeStr o)) =
      .ok (match o with | none => pd | some r => pd.with_warn r) := by
  cases o with
  | none => rfl
  | some r =>
    rw [show optRangeStr (some r) = fmtThresholdRange r from rfl,
      if_neg (fmtRange_ne_nil r)]
    simp only [applyWarn, from_str_fmtRange r ho]

theorem crit_if (pd : Perfdata) (o : Option ThresholdRange) (ho : okOptRange o) :
    applyCrit pd (if optRangeStr o = [] then none else some (optRangeStr o)) =
      .ok (match o with | none => pd | some r => pd.with_crit r) := by
  cases o with
  | none => rfl
  | some r =>
    rw [show optRangeStr (some r) = fmtThresholdRange r from rfl,
      if_neg (fmtRange_ne_nil r)]
    simp only [applyCrit, from_str_fmtRange r ho]

theorem min_if (pd : Perfdata) (o : Option Val) (ho : okOptVal o) :
    applyMin pd (if optValStr o = [] then none else some (optValStr o)) =
      .ok (match o with | none => pd | some v => pd.with_min v) := by
  cases o with
  | none => rfl
  | some v =>
    rw [show optValStr (some v) = fmtVal v from rfl, if_neg (fmtVal_ne_nil v)]
    simp only [applyMin, parseVal_fmtVal v ho]

theorem max_if (pd : Perfdata) (o : Option Val) (ho : okOptVal o) :
    applyMax pd (if optValStr o = [] then none else some (optValStr o)) =
      .ok (match o with | none => pd | some v => pd.with_max v) := by
  cases o with
  | none => rfl
  | some v =>
    rw [show optValStr (some v) = fmtVal v from rfl, if_neg (fmtVal_ne_nil v)]
    simp only [applyMax, parseVal_fmtVal v ho]

theorem tryFromData_plain (label : Str) (u : PerfUnit) (hu : okUnit u) :
    tryFromData label [fmtPerfUnit u, []] = .ok (Perfdata.new label u) := by
  unfold tryFromData
  simp only [next_datapoint, if_neg (fmtPerfUnit_ne_nil u), ppwu_fmtUnit label u hu]
  rfl

theorem tryFromData_segments (label : Str) (u : PerfUnit) (hu : okUnit u)
    (warn crit : Option ThresholdRange) (mn mx : Option Val)
    (hw : okOptRange warn) (hc : okOptRange crit) (hm : okOptVal mn)
    (hx : okOptVal mx) :
    tryFromData label
      [fmtPerfUnit u, optRangeStr warn, optRangeStr crit, optValStr mn, optValStr mx,
        []] = .ok ⟨label, u, warn, crit, mn, mx⟩ := by
  unfold tryFromData
  simp only [next_datapoint, if_neg (fmtPerfUnit_ne_nil u), ppwu_fmtUnit label u hu,
    warn_if _ warn hw, crit_if _ crit hc, min_if _ mn hm, max_if _ mx hx]
  cases warn <;> cases crit <;> cases mn <;> cases mx <;>
    simp [Perfdata.with_warn, Perfdata.with_crit, Perfdata.with_min,
      Perfdata.with_max, Perfdata.new]

theorem semi_not_mem_optRangeStr (o : Option ThresholdRange) :
    ';' ∉ optRangeStr o := by
  cases o with
  | none => simp [optRangeStr]
  | some r => exact semi_not_mem_fmtRange r

theorem semi_not_mem_optValStr (o : Option Val) : ';' ∉ optValStr o := by
  cases o with
  | none => simp [optValStr]
  | some v => exact semi_not_mem_fmtVal v

/-- C1 (amended): the display/`try_from` round trip holds for every record whose
label is non-empty and free of single quotes and equals signs, whose value
payload is a finite decimal, and whose optional warn/crit ranges and min/max
limits (when present) have non-NaN decimal bounds with `start ≤ end`.  As stated
the claim is false: records the constructors and builders can also produce —
an empty label, a label containing `'` or `=`, or a NaN bound — do not round
trip (see the counterexample). -/
theorem C1_roundtrip (p : Perfdata) (hl : goodLabel p.label) (hu : okUnit p.unit)
    (hw : okOptRange p.warn) (hc : okOptRange p.crit) (hm : okOptVal p.min)
    (hx : okOptVal p.max) :
    tryFrom (fmtPerfdata p) = some (.ok p) := by
  obtain ⟨label, u, warn, crit, mn, mx⟩ := p
  obtain ⟨hlne, hlq, hleq⟩ := hl
  have hnotin : '=' ∉ ('\'' :: label ++ ['\'']) := by
    intro hmem
    rcases List.mem_cons.mp hmem with h | h
    · exact absurd h (by decide)
    · rcases List.mem_append.mp h with h | h
      · exact hleq h
      · exact absurd (List.mem_singleton.mp h) (by decide)
  cases hAny : Perfdata.has_any_thresholds_or_limits ⟨label, u, warn, crit, mn, mx⟩ with
  | false =>
    have hwn : warn = none := by
      cases warn with
      | none => rfl
      | some r => simp [Perfdata.has_any_thresholds_or_limits] at hAny
    have hcn : crit = none := by
      cases crit with
      | none => rfl
      | some r => simp [Perfdata.has_any_thresholds_or_limits] at hAny
    have hmn : mn = none := by
      cases mn with
      | none => rfl
      | some v => simp [Perfdata.has_any_thresholds_or_limits] at hAny
    have hxn : mx = none := by
      cases mx with
      | none => rfl
      | some v => simp [Perfdata.has_any_thresholds_or_limits] at hAny
    subst hwn hcn hmn hxn
    have hshape : fmtPerfdata ⟨label, u, none, none, none, none⟩ =
        ('\'' :: label ++ ['\'']) ++ '=' :: (fmtPerfUnit u ++ ';' :: []) := by
      simp [fmtPerfdata, Perfdata.has_any_thresholds_or_limits]
    rw [hshape]
    unfold tryFrom
    rw [splitOnce_append _ _ hnotin]
    simp only [parse_label_quoted label hlne hlq]
    rw [splitChar_append _ _ (semi_not_mem_fmtPerfUnit u),
      show Str.splitChar ';' [] = [[]] from rfl,
      tryFromData_plain label u hu]
    rfl
  | true =>
    have hft : ∀ (o : Option ThresholdRange),
        fmt_threshold fmtThresholdRange o = optRangeStr o ++ [';'] := by
      intro o; cases o <;> rfl
    have hfv : ∀ (o : Option Val),
        fmt_threshold fmtVal o = optValStr o ++ [';'] := by
      intro o; cases o <;> rfl
    have hshape : fmtPerfdata ⟨label, u, warn, crit, mn, mx⟩ =
        ('\'' :: label ++ ['\'']) ++ '=' :: (fmtPerfUnit u ++ ';' ::
          (optRangeStr warn ++ ';' :: (optRangeStr crit ++ ';' ::
            (optValStr mn ++ ';' :: (optValStr mx ++ ';' :: []))))) := by
      simp [fmtPerfdata, hAny, hft, hfv]
    rw [hshape]
    unfold tryFrom
    rw [splitOnce_append _ _ hnotin]
    simp only [parse_label_quoted label hlne hlq]
    rw [splitChar_append _ _ (semi_not_mem_fmtPerfUnit u),
      splitChar_append _ _ (semi_not_mem_optRangeStr warn),
      splitChar_append _ _ (semi_not_mem_optRangeStr crit),
      splitChar_append _ _ (semi_not_mem_optValStr mn),
      splitChar_append _ _ (semi_not_mem_optValStr mx),
      show Str.splitChar ';' [] = [[]] from rfl,
      tryFromData_segments label u hu warn crit mn mx hw hc hm hx]

/-- C1 counterexample: `Perfdata::undetermined("")` is built by a constructor,
but its display `''=U;` parses back to `Err(MissingLabel)`, not to the record. -/
theorem C1_counterexample :
    tryFrom (fmtPerfdata (Perfdata.undetermined [])) =
      some (.error .missingLabel) := by
  decide

theorem C1_witness :
    tryFrom (fmtPerfdata ⟨['a'], .Bytes (.finite 42),
        some ⟨false, .finite 0, .finite 5⟩, some ⟨true, .finite 1, .finite 9⟩,
        some (.finite 0), some (.finite 100)⟩) =
      some (.ok ⟨['a'], .Bytes (.finite 42),
        some ⟨false, .finite 0, .finite 5⟩, some ⟨true, .finite 1, .finite 9⟩,
        some (.finite 0), some (.finite 100)⟩) :=
  C1_roundtrip _ ⟨by decide, by decide, by decide⟩
    (show Val.IsFiniteDecimal (.finite 42) by decide)
    ⟨by decide, by decide, by decide⟩ ⟨by decide, by decide, by decide⟩
    (show Val.IsDecimal (.finite 0) by decide)
    (show Val.IsDecimal (.finite 100) by decide)
